import Mathlib

/-!
# Doubly linked list of heap-allocated strings (`chapter-1/linked_list.c`)

A shallow embedding of the C program.  Memory is modelled by two typed stores:
`nodes` maps the address of a live `Node` block to its three fields, `strs`
maps the address of a live string block to its text.  `NULL` is `none`.
The two `malloc` results consumed by `createNode` are inputs of the model, so
every statement quantifies over all choices the allocator can make.
Loops take a fuel argument (one unit per evaluation of the loop condition);
an access through a pointer that is not live, or running out of fuel, gives
`none`.
-/

namespace LinkedList

/-- A pointer: `none` is `NULL`. -/
abbrev Ptr := Option Nat

/-- The C `struct Node`: `data`, `next`, `prev`. -/
structure Node where
  data : Ptr
  next : Ptr
  prev : Ptr
deriving DecidableEq, Repr

/-- Program state: the live node blocks, the live string blocks, and what the
list operations have written to stdout (`out`, the notice of `deleteNode`) and
to stderr (`err`, the messages of `createNode`). -/
structure State where
  nodes : Nat → Option Node
  strs : Nat → Option String
  out : List String
  err : List String

/-- Point update of a store. -/
def set {α : Type} (m : Nat → Option α) (p : Nat) (v : Option α) : Nat → Option α :=
  fun q => if q = p then v else m q

/-- The state at program start: nothing allocated, nothing printed. -/
def State.init : State :=
  { nodes := fun _ => none, strs := fun _ => none, out := [], err := [] }

/-- The results of the two `malloc` calls of `createNode`
(`none` is a `NULL` result). -/
structure Alloc where
  node : Ptr
  str : Ptr
deriving DecidableEq, Repr

/-- The sign of `strcmp` on the contents of two C strings. -/
def strcmpChars : List Char → List Char → Int
  | [], [] => 0
  | [], _ :: _ => -1
  | _ :: _, [] => 1
  | a :: as, b :: bs =>
    if a = b then strcmpChars as bs else if a.toNat < b.toNat then -1 else 1

/-- The library function `strcmp`, up to the magnitude of a non-zero result. -/
def strcmp (a b : String) : Int := strcmpChars a.data b.data

/-- Write `p->next = v`. -/
def State.storeNext (s : State) (p : Nat) (v : Ptr) : Option State :=
  match s.nodes p with
  | none => none
  | some n => some { s with nodes := set s.nodes p (some { n with next := v }) }

/-- Write `p->prev = v`. -/
def State.storePrev (s : State) (p : Nat) (v : Ptr) : Option State :=
  match s.nodes p with
  | none => none
  | some n => some { s with nodes := set s.nodes p (some { n with prev := v }) }

/-- The call `free(p)` on a node block. -/
def State.freeNode (s : State) (p : Nat) : Option State :=
  match s.nodes p with
  | none => none
  | some _ => some { s with nodes := set s.nodes p none }

/-- The call `free(d)` on a string block; `free(NULL)` does nothing. -/
def State.freeStr (s : State) (d : Ptr) : Option State :=
  match d with
  | none => some s
  | some a =>
    match s.strs a with
    | none => none
    | some _ => some { s with strs := set s.strs a none }

/-- Source lines 30-50.  `a.node` is the result of `malloc(sizeof(Node))` and
`a.str` the result of `malloc(strlen(str) + 1)`; when the second fails the node
block is released again.  On success the text is copied into the string block
and both links of the node are `NULL`. -/
def createNode (s : State) (a : Alloc) (str : String) : State × Ptr :=
  match a.node with
  | none => ({ s with err := s.err ++ ["Memory allocation failed for node\n"] }, none)
  | some p =>
    match a.str with
    | none =>
      ({ s with nodes := set s.nodes p none,
                err := s.err ++ ["Memory allocation failed for string\n"] }, none)
    | some d =>
      ({ s with nodes := set s.nodes p (some { data := some d, next := none, prev := none }),
                strs := set s.strs d (some str) }, some p)

/-- Source lines 56-67: `newNode->next = head; head->prev = newNode;` and the
new node is returned; with `head == NULL` the new node alone is returned; when
`createNode` fails `head` is returned. -/
def insertAtBeginning (s : State) (a : Alloc) (head : Ptr) (str : String) :
    Option (State × Ptr) :=
  match createNode s a str with
  | (s1, none) => some (s1, head)
  | (s1, some newNode) =>
    match head with
    | none => some (s1, some newNode)
    | some h =>
      (s1.storeNext newNode (some h)).bind fun s2 =>
      (s2.storePrev h (some newNode)).bind fun s3 =>
      some (s3, some newNode)

/-- The loop `while (current->next != NULL) current = current->next;`
(source lines 83-85 and 171-173). -/
def seekTail : Nat → State → Nat → Option Nat
  | 0, _, _ => none
  | fuel + 1, s, current =>
    match s.nodes current with
    | none => none
    | some n =>
      match n.next with
      | none => some current
      | some q => seekTail fuel s q

/-- Source lines 73-90: walk to the node whose `next` is `NULL`, then
`current->next = newNode; newNode->prev = current;` and `head` is returned;
with `head == NULL` the new node is returned; when `createNode` fails `head`
is returned. -/
def insertAtEnd (fuel : Nat) (s : State) (a : Alloc) (head : Ptr) (str : String) :
    Option (State × Ptr) :=
  match createNode s a str with
  | (s1, none) => some (s1, head)
  | (s1, some newNode) =>
    match head with
    | none => some (s1, some newNode)
    | some h =>
      (seekTail fuel s1 h).bind fun current =>
      (s1.storeNext current (some newNode)).bind fun s2 =>
      (s2.storePrev newNode (some current)).bind fun s3 =>
      some (s3, some h)

/-- Source lines 96-105: the first node from `head` on whose string compares
equal to `str` under `strcmp`.  The result `some none` is the return value
`NULL`. -/
def findNode : Nat → State → Ptr → String → Option Ptr
  | 0, _, _, _ => none
  | _ + 1, _, none, _ => some none
  | fuel + 1, s, some current, str =>
    (s.nodes current).bind fun n =>
    n.data.bind fun d =>
    (s.strs d).bind fun v =>
    if strcmp v str = 0 then some (some current) else findNode fuel s n.next str

/-- The text printed by `deleteNode` when nothing matches (source line 115). -/
def notFoundNotice (str : String) : String :=
  "Node with value '" ++ str ++ "' not found\n"

/-- Source lines 120-122:
`if (n->prev != NULL) n->prev->next = n->next;` for the node contents `n`. -/
def unlinkPrevSide (s : State) (n : Node) : Option State :=
  match n.prev with
  | none => some s
  | some q => s.storeNext q n.next

/-- Source lines 123-125:
`if (n->next != NULL) n->next->prev = n->prev;` for the node contents `n`. -/
def unlinkNextSide (s : State) (n : Node) : Option State :=
  match n.next with
  | none => some s
  | some q => s.storePrev q n.prev

/-- Source lines 111-138.  Every `nodeToDelete->field` is a fresh read of memory. -/
def deleteNode (fuel : Nat) (s : State) (head : Ptr) (str : String) :
    Option (State × Ptr) :=
  match findNode fuel s head str with
  | none => none
  | some none => some ({ s with out := s.out ++ [notFoundNotice str] }, head)
  | some (some nodeToDelete) =>
    (s.nodes nodeToDelete).bind fun n =>
    (unlinkPrevSide s n).bind fun s1 =>
    (s1.nodes nodeToDelete).bind fun n1 =>
    (unlinkNextSide s1 n1).bind fun s2 =>
    (if some nodeToDelete = head then (s2.nodes nodeToDelete).map Node.next
      else some head).bind fun newHead =>
    (s2.nodes nodeToDelete).bind fun n3 =>
    (s2.freeStr n3.data).bind fun s3 =>
    (s3.freeNode nodeToDelete).bind fun s4 =>
    some (s4, newHead)

/-- The forward traversal of `displayForward` (source lines 143-157): the
values `current->data` its loop prints, in the order they are visited.  For a
`NULL` head the function prints no value, as the loop does. -/
def forward : Nat → State → Ptr → Option (List String)
  | 0, _, _ => none
  | _ + 1, _, none => some []
  | fuel + 1, s, some current =>
    (s.nodes current).bind fun n =>
    n.data.bind fun d =>
    (s.strs d).bind fun v =>
    (forward fuel s n.next).map fun rest => v :: rest

/-- The values printed by the second loop of `displayBackward`
(source lines 176-180), which follows the `prev` links. -/
def backwardFrom : Nat → State → Ptr → Option (List String)
  | 0, _, _ => none
  | _ + 1, _, none => some []
  | fuel + 1, s, some current =>
    (s.nodes current).bind fun n =>
    n.data.bind fun d =>
    (s.strs d).bind fun v =>
    (backwardFrom fuel s n.prev).map fun rest => v :: rest

/-- The values printed by `displayBackward` (source lines 162-182): find the
tail through the `next` links, then walk the `prev` links. -/
def backward (fuel : Nat) (s : State) (head : Ptr) : Option (List String) :=
  match head with
  | none => some []
  | some h => (seekTail fuel s h).bind fun tail => backwardFrom fuel s (some tail)

/-- Source lines 187-195: for each node from `head` on, read its `next`, then
release its string block and the node block.  The head is a by-value
argument and nothing is returned. -/
def freeList : Nat → State → Ptr → Option State
  | 0, _, _ => none
  | _ + 1, s, none => some s
  | fuel + 1, s, some temp =>
    (s.nodes temp).bind fun n =>
    (s.freeStr n.data).bind fun s1 =>
    (s1.freeNode temp).bind fun s2 =>
    freeList fuel s2 n.next

/-- What `main` shows of the list: the traversals displayed after each test
and the results of the two searches of test 3, then the value of the variable
`list` and the state when `main` returns. -/
structure Transcript where
  test1Forward : List String
  test1Backward : List String
  test2Forward : List String
  test2Backward : List String
  test3Bob : Ptr
  test3David : Ptr
  test4Forward : List String
  test4Backward : List String
  test5Forward : List String
  test5Backward : List String
  test6Forward : List String
  test6Backward : List String
  test7Forward : List String
  test8List : Ptr
  test8Out : List String
  finalList : Ptr
  finalState : State

/-- Source lines 200-270.  The four `createNode` calls receive the allocation
results `a1` to `a4`; each `displayForward` and `displayBackward` call is
recorded as the sequence of values it prints, and the `printf` lines of the
driver itself are left out.  A step that gives `none` (an invalid access or
exhausted fuel) ends the run. -/
def main (fuel : Nat) (a1 a2 a3 a4 : Alloc) : Option Transcript :=
  match insertAtEnd fuel State.init a1 none "Alice" with
  | none => none
  | some (s, list) =>
  match insertAtEnd fuel s a2 list "Bob" with
  | none => none
  | some (s, list) =>
  match insertAtEnd fuel s a3 list "Charlie" with
  | none => none
  | some (s, list) =>
  match forward fuel s list with
  | none => none
  | some f1 =>
  match backward fuel s list with
  | none => none
  | some b1 =>
  match insertAtBeginning s a4 list "Zoe" with
  | none => none
  | some (s, list) =>
  match forward fuel s list with
  | none => none
  | some f2 =>
  match backward fuel s list with
  | none => none
  | some b2 =>
  match findNode fuel s list "Bob" with
  | none => none
  | some foundBob =>
  match findNode fuel s list "David" with
  | none => none
  | some foundDavid =>
  match deleteNode fuel s list "Bob" with
  | none => none
  | some (s, list) =>
  match forward fuel s list with
  | none => none
  | some f4 =>
  match backward fuel s list with
  | none => none
  | some b4 =>
  match deleteNode fuel s list "Zoe" with
  | none => none
  | some (s, list) =>
  match forward fuel s list with
  | none => none
  | some f5 =>
  match backward fuel s list with
  | none => none
  | some b5 =>
  match deleteNode fuel s list "Charlie" with
  | none => none
  | some (s, list) =>
  match forward fuel s list with
  | none => none
  | some f6 =>
  match backward fuel s list with
  | none => none
  | some b6 =>
  match deleteNode fuel s list "Alice" with
  | none => none
  | some (s, list) =>
  match forward fuel s list with
  | none => none
  | some f7 =>
  match deleteNode fuel s list "NonExistent" with
  | none => none
  | some (s, list) =>
  match freeList fuel s list with
  | none => none
  | some final =>
  some {
    test1Forward := f1, test1Backward := b1, test2Forward := f2, test2Backward := b2,
    test3Bob := foundBob, test3David := foundDavid,
    test4Forward := f4, test4Backward := b4, test5Forward := f5, test5Backward := b5,
    test6Forward := f6, test6Backward := b6, test7Forward := f7,
    test8List := list, test8Out := s.out, finalList := list, finalState := final }

/-- One node of a list as the invariant sees it: the address of the node
block, the address of its string block, and the text stored there. -/
structure Entry where
  addr : Nat
  str : Nat
  val : String
deriving DecidableEq, Repr

/-- Address of the first entry, or `nxt` when there is none. -/
def headOr : List Entry → Ptr → Ptr
  | [], nxt => nxt
  | e :: _, _ => some e.addr

/-- Address of the last entry, or `prev` when there is none. -/
def lastOr : List Entry → Ptr → Ptr
  | [], prev => prev
  | e :: es, _ => lastOr es (some e.addr)

/-- The values of a list of entries, in order. -/
def values (es : List Entry) : List String := es.map Entry.val

/-- A doubly linked segment: the entries are live nodes with live strings, the
first one has `prev` field `prev`, the last one has `next` field `nxt`, and for
adjacent entries `A`, `B`: `A.next == B` and `B.prev == A`. -/
def Seg (s : State) : Ptr → List Entry → Ptr → Prop
  | _, [], _ => True
  | prev, e :: es, nxt =>
    s.nodes e.addr = some { data := some e.str, next := headOr es nxt, prev := prev } ∧
    s.strs e.str = some e.val ∧
    Seg s (some e.addr) es nxt

/-- The invariants in the form the proofs use, as one doubly linked segment
from `NULL` to `NULL` (`isList_iff_invariant` shows it says the same as
`ListInvariant`). -/
def IsList (s : State) (head : Ptr) (es : List Entry) : Prop :=
  head = headOr es none ∧ Seg s none es none ∧
  (es.map Entry.addr).Nodup ∧ (es.map Entry.str).Nodup

/-- The invariants of the data model for the list with head reference `head`,
where `es` lists its nodes in traversal order: every node is live and holds a
live string; the head node has `prev == NULL`; the tail node has
`next == NULL`; for adjacent nodes `A` then `B`, `A.next == B` and
`B.prev == A`; no node occurs twice, and no string block belongs to two nodes.
The empty list is the head `NULL`. -/
structure ListInvariant (s : State) (head : Ptr) (es : List Entry) : Prop where
  head_eq : head = headOr es none
  live : ∀ e ∈ es, ∃ n, s.nodes e.addr = some n ∧ n.data = some e.str ∧
    s.strs e.str = some e.val
  head_prev : ∀ e rest n, es = e :: rest → s.nodes e.addr = some n → n.prev = none
  tail_next : ∀ init e n, es = init ++ [e] → s.nodes e.addr = some n → n.next = none
  adjacent : ∀ l1 a b l2 na nb, es = l1 ++ a :: b :: l2 →
    s.nodes a.addr = some na → s.nodes b.addr = some nb →
    na.next = some b.addr ∧ nb.prev = some a.addr
  nodup_addr : (es.map Entry.addr).Nodup
  nodup_str : (es.map Entry.str).Nodup

/-- A well-formed list: the invariants of the data model hold for some
sequence of nodes. -/
def WellFormed (s : State) (head : Ptr) : Prop := ∃ es, ListInvariant s head es

/-- The lists the program can build: start from the empty list (head `NULL`)
and apply successful calls of `insertAtBeginning`, `insertAtEnd` and
`deleteNode`; an insertion is given two blocks that were not live, as `malloc`
guarantees. -/
inductive Built : State → Ptr → Prop
  | empty (s : State) : Built s none
  | front {s t : State} {head newHead : Ptr} (p d : Nat) (v : String) :
      Built s head → s.nodes p = none → s.strs d = none →
      insertAtBeginning s ⟨some p, some d⟩ head v = some (t, newHead) → Built t newHead
  | back {s t : State} {head newHead : Ptr} (fuel p d : Nat) (v : String) :
      Built s head → s.nodes p = none → s.strs d = none →
      insertAtEnd fuel s ⟨some p, some d⟩ head v = some (t, newHead) → Built t newHead
  | delete {s t : State} {head newHead : Ptr} (fuel : Nat) (v : String) :
      Built s head → deleteNode fuel s head v = some (t, newHead) → Built t newHead

/-- Nothing but the blocks of the entries is live. -/
def OnlyList (s : State) (es : List Entry) : Prop :=
  (∀ q, q ∉ es.map Entry.addr → s.nodes q = none) ∧
  (∀ q, q ∉ es.map Entry.str → s.strs q = none)

/-- A state holding exactly the given node and string blocks. -/
def State.ofBlocks (ns : List (Nat × Node)) (ss : List (Nat × String)) : State :=
  { nodes := fun q => ns.lookup q, strs := fun q => ss.lookup q, out := [], err := [] }

/-- The list `Alice <-> Bob <-> Alice`, nodes at 1, 2, 3 and strings at 11, 12, 13. -/
def sampleState : State :=
  State.ofBlocks
    [(1, ⟨some 11, some 2, none⟩), (2, ⟨some 12, some 3, some 1⟩), (3, ⟨some 13, none, some 2⟩)]
    [(11, "Alice"), (12, "Bob"), (13, "Alice")]

/-- The entries of `sampleState`. -/
def sampleEntries : List Entry := [⟨1, 11, "Alice"⟩, ⟨2, 12, "Bob"⟩, ⟨3, 13, "Alice"⟩]

/-- A list with the single node 1 holding the string block 11, `Alice`. -/
def sampleOne : State :=
  State.ofBlocks [(1, ⟨some 11, none, none⟩)] [(11, "Alice")]

/-- The memory of `t` is that of `s`: the same node blocks and string blocks
with the same contents, hence the same traversals from any head. -/
def SameMemory (s t : State) : Prop :=
  t.nodes = s.nodes ∧ t.strs = s.strs ∧
  (∀ f head, forward f t head = forward f s head) ∧
  (∀ f head, backward f t head = backward f s head)

/-- A block handed to `free`: a node block or a string block. -/
inductive Block where
  | node (p : Nat)
  | str (d : Nat)
deriving DecidableEq, Repr

/-- The block released by `free(d)` for a string pointer; `free(NULL)`
releases nothing. -/
def Block.ofData : Ptr → List Block
  | none => []
  | some d => [Block.str d]

/-- The function `freeList` (source lines 187-195) with the list of the blocks
it passes to `free`, in the order of the calls. -/
def freeListLog : Nat → State → Ptr → Option (State × List Block)
  | 0, _, _ => none
  | _ + 1, s, none => some (s, [])
  | fuel + 1, s, some temp =>
    (s.nodes temp).bind fun n =>
    (s.freeStr n.data).bind fun s1 =>
    (s1.freeNode temp).bind fun s2 =>
    (freeListLog fuel s2 n.next).map fun r =>
      (r.1, Block.ofData n.data ++ Block.node temp :: r.2)

/-- The function `deleteNode` (source lines 111-138) with the list of the
blocks it passes to `free`, in the order of the calls. -/
def deleteNodeLog (fuel : Nat) (s : State) (head : Ptr) (str : String) :
    Option (State × Ptr × List Block) :=
  match findNode fuel s head str with
  | none => none
  | some none => some ({ s with out := s.out ++ [notFoundNotice str] }, head, [])
  | some (some nodeToDelete) =>
    (s.nodes nodeToDelete).bind fun n =>
    (unlinkPrevSide s n).bind fun s1 =>
    (s1.nodes nodeToDelete).bind fun n1 =>
    (unlinkNextSide s1 n1).bind fun s2 =>
    (if some nodeToDelete = head then (s2.nodes nodeToDelete).map Node.next
      else some head).bind fun newHead =>
    (s2.nodes nodeToDelete).bind fun n3 =>
    (s2.freeStr n3.data).bind fun s3 =>
    (s3.freeNode nodeToDelete).bind fun s4 =>
    some (s4, newHead, Block.ofData n3.data ++ [Block.node nodeToDelete])

/-- The blocks of a list of entries: for each entry its string block, then its
node block. -/
def blocksOf : List Entry → List Block
  | [] => []
  | e :: es => Block.str e.str :: Block.node e.addr :: blocksOf es

/-- The address of the first entry that holds `w`, `NULL` when none does. -/
def firstMatch : List Entry → String → Ptr
  | [], _ => none
  | e :: es, w => if e.val = w then some e.addr else firstMatch es w

/-! ## Basic facts -/

@[simp] theorem set_same {α : Type} (m : Nat → Option α) (p : Nat) (v : Option α) :
    set m p v p = v := by
  simp [set]

theorem set_ne {α : Type} (m : Nat → Option α) {p q : Nat} (v : Option α) (h : q ≠ p) :
    set m p v q = m q := by
  simp [set, h]

theorem set_fresh {α : Type} (m : Nat → Option α) (p : Nat) (h : m p = none) :
    set m p none = m := by
  funext q
  by_cases hq : q = p
  · subst hq; simp [h]
  · simp [set, hq]

theorem strcmpChars_eq_zero : ∀ a b : List Char, strcmpChars a b = 0 ↔ a = b
  | [], [] => by simp [strcmpChars]
  | [], _ :: _ => by simp [strcmpChars]
  | _ :: _, [] => by simp [strcmpChars]
  | a :: as, b :: bs => by
    by_cases h : a = b
    · simp [strcmpChars, h, strcmpChars_eq_zero as bs]
    · by_cases h2 : a.toNat < b.toNat <;> simp [strcmpChars, h, h2]

theorem strcmp_eq_zero (a b : String) : strcmp a b = 0 ↔ a = b := by
  unfold strcmp
  rw [strcmpChars_eq_zero]
  constructor
  · intro h
    cases a; cases b; simp_all
  · intro h; rw [h]

@[simp] theorem values_nil : values [] = [] := rfl

@[simp] theorem values_cons (e : Entry) (es : List Entry) :
    values (e :: es) = e.val :: values es := rfl

@[simp] theorem values_append (l1 l2 : List Entry) :
    values (l1 ++ l2) = values l1 ++ values l2 := by
  simp [values]

@[simp] theorem length_values (es : List Entry) : (values es).length = es.length := by
  simp [values]

theorem headOr_append (l1 l2 : List Entry) (nxt : Ptr) :
    headOr (l1 ++ l2) nxt = headOr l1 (headOr l2 nxt) := by
  cases l1 <;> rfl

theorem lastOr_append (l1 l2 : List Entry) (prev : Ptr) :
    lastOr (l1 ++ l2) prev = lastOr l2 (lastOr l1 prev) := by
  induction l1 generalizing prev with
  | nil => rfl
  | cons e es ih => simpa [lastOr] using ih (some e.addr)

/-- A segment only depends on the cells of its own entries. -/
theorem Seg.frame {s t : State} :
    ∀ (es : List Entry) (prev nxt : Ptr),
      (∀ e ∈ es, t.nodes e.addr = s.nodes e.addr ∧ t.strs e.str = s.strs e.str) →
      Seg s prev es nxt → Seg t prev es nxt
  | [], _, _, _, _ => trivial
  | e :: es, _, nxt, hfr, ⟨h1, h2, h3⟩ => by
    have he := hfr e (List.mem_cons_self _ _)
    refine ⟨by rw [he.1]; exact h1, by rw [he.2]; exact h2, ?_⟩
    exact Seg.frame es (some e.addr) nxt (fun x hx => hfr x (List.mem_cons_of_mem _ hx)) h3

/-- Splitting a segment in two. -/
theorem Seg.append_iff (s : State) :
    ∀ (l1 l2 : List Entry) (prev nxt : Ptr),
      Seg s prev (l1 ++ l2) nxt ↔
        Seg s prev l1 (headOr l2 nxt) ∧ Seg s (lastOr l1 prev) l2 nxt
  | [], l2, prev, nxt => by simp [Seg, lastOr]
  | e :: es, l2, prev, nxt => by
    have ih := Seg.append_iff s es l2 (some e.addr) nxt
    show (_ ∧ _ ∧ Seg s (some e.addr) (es ++ l2) nxt) ↔ (_ ∧ _ ∧ _) ∧ _
    have hh : headOr (es.append l2) nxt = headOr es (headOr l2 nxt) := headOr_append es l2 nxt
    rw [ih, hh]
    show _ ↔ (_ ∧ _ ∧ _) ∧ Seg s (lastOr es (some e.addr)) l2 nxt
    tauto

@[simp] theorem headOr_nil (nxt : Ptr) : headOr [] nxt = nxt := rfl

@[simp] theorem headOr_cons (e : Entry) (es : List Entry) (nxt : Ptr) :
    headOr (e :: es) nxt = some e.addr := rfl

@[simp] theorem lastOr_nil (prev : Ptr) : lastOr [] prev = prev := rfl

@[simp] theorem lastOr_cons (e : Entry) (es : List Entry) (prev : Ptr) :
    lastOr (e :: es) prev = lastOr es (some e.addr) := rfl

/-! ## The loops on a well-formed segment -/

theorem forward_seg (s : State) :
    ∀ (es : List Entry) (prev nxt : Ptr) (k : Nat), Seg s prev es nxt →
      forward (es.length + k) s (headOr es nxt) =
        (forward k s nxt).map fun rest => values es ++ rest
  | [], _, nxt, k, _ => by simp
  | e :: es, _, nxt, k, ⟨h1, h2, h3⟩ => by
    have ih := forward_seg s es (some e.addr) nxt k h3
    have hl : (e :: es).length + k = (es.length + k) + 1 := by simp; omega
    rw [hl]
    simp [forward, h1, h2, ih, Option.map_map, Function.comp_def]

theorem backwardFrom_seg (s : State) :
    ∀ (es : List Entry) (prev nxt : Ptr) (k : Nat), Seg s prev es nxt →
      backwardFrom (es.length + k) s (lastOr es prev) =
        (backwardFrom k s prev).map fun rest => (values es).reverse ++ rest
  | [], prev, _, k, _ => by simp
  | e :: es, prev, nxt, k, ⟨h1, h2, h3⟩ => by
    have ih := backwardFrom_seg s es (some e.addr) nxt (k + 1) h3
    have hl : (e :: es).length + k = es.length + (k + 1) := by simp; omega
    rw [hl]
    simp [ih, backwardFrom, h1, h2, Option.map_map, Function.comp_def]

theorem seekTail_seg (s : State) :
    ∀ (es : List Entry) (e : Entry) (prev : Ptr) (k : Nat), Seg s prev (e :: es) none →
      seekTail (es.length + 1 + k) s e.addr = lastOr es (some e.addr)
  | [], e, _, k, ⟨h1, _, _⟩ => by
    have hl : ([] : List Entry).length + 1 + k = k + 1 := by simp; omega
    rw [hl]
    simp [seekTail, h1]
  | e2 :: es, e, _, k, ⟨h1, _, h3⟩ => by
    have ih := seekTail_seg s es e2 (some e.addr) k h3
    have hl : (e2 :: es).length + 1 + k = (es.length + 1 + k) + 1 := by simp; omega
    rw [hl]
    simp [seekTail, h1, ih]

theorem findNode_seg_skip (s : State) (v : String) :
    ∀ (es : List Entry) (prev nxt : Ptr) (k : Nat), Seg s prev es nxt →
      v ∉ values es →
      findNode (es.length + k) s (headOr es nxt) v = findNode k s nxt v
  | [], _, _, k, _, _ => by simp
  | e :: es, _, nxt, k, ⟨h1, h2, h3⟩, hv => by
    have hne : ¬ e.val = v := fun h => hv (by simp [h])
    have hv2 : v ∉ values es := fun h => hv (by simp [h])
    have ih := findNode_seg_skip s v es (some e.addr) nxt k h3 hv2
    have hl : (e :: es).length + k = (es.length + k) + 1 := by simp; omega
    rw [hl]
    simp [findNode, h1, h2, strcmp_eq_zero, hne, ih]

theorem findNode_seg_hit (s : State) (e : Entry) (es : List Entry) (prev nxt : Ptr)
    (k : Nat) (h : Seg s prev (e :: es) nxt) :
    findNode (k + 1) s (some e.addr) e.val = some (some e.addr) := by
  obtain ⟨h1, h2, _⟩ := h
  simp [findNode, h1, h2, strcmp_eq_zero]

/-! ## The invariant, node by node and as a segment -/

theorem Seg.node_eq {s : State} :
    ∀ {es : List Entry} {prev nxt : Ptr}, Seg s prev es nxt →
      ∀ x ∈ es, ∃ n, s.nodes x.addr = some n ∧ n.data = some x.str ∧
        s.strs x.str = some x.val
  | [], _, _, _, x, hx => by simp at hx
  | e :: es, _, _, ⟨h1, h2, h3⟩, x, hx => by
    rcases List.mem_cons.1 hx with rfl | hx
    · exact ⟨_, h1, rfl, h2⟩
    · exact Seg.node_eq h3 x hx

/-- Links stated node by node give a segment. -/
theorem seg_of_links {s : State} :
    ∀ (es : List Entry) (prev nxt : Ptr),
      (∀ e ∈ es, ∃ n, s.nodes e.addr = some n ∧ n.data = some e.str ∧
        s.strs e.str = some e.val) →
      (∀ e rest n, es = e :: rest → s.nodes e.addr = some n → n.prev = prev) →
      (∀ init e n, es = init ++ [e] → s.nodes e.addr = some n → n.next = nxt) →
      (∀ l1 a b l2 na nb, es = l1 ++ a :: b :: l2 →
        s.nodes a.addr = some na → s.nodes b.addr = some nb →
        na.next = some b.addr ∧ nb.prev = some a.addr) →
      Seg s prev es nxt
  | [], _, _, _, _, _, _ => trivial
  | e :: es, prev, nxt, hlive, hhead, htail, hadj => by
    obtain ⟨n, hn, hdata, hstr⟩ := hlive e (List.mem_cons_self _ _)
    have hprev : n.prev = prev := hhead e es n rfl hn
    have hnext : n.next = headOr es nxt := by
      cases es with
      | nil => exact htail [] e n rfl hn
      | cons b l =>
        obtain ⟨nb, hnb, _⟩ := hlive b (by simp)
        exact (hadj [] e b l n nb rfl hn hnb).1
    refine ⟨?_, hstr, ?_⟩
    · rw [hn, ← hdata, ← hnext, ← hprev]
    · refine seg_of_links es (some e.addr) nxt
        (fun x hx => hlive x (List.mem_cons_of_mem _ hx)) ?_ ?_ ?_
      · intro b rest nb hes hnb
        subst hes
        exact (hadj [] e b rest n nb rfl hn hnb).2
      · intro init x nx hes hnx
        subst hes
        exact htail (e :: init) x nx rfl hnx
      · intro l1 a b l2 na nb hes hna hnb
        subst hes
        exact hadj (e :: l1) a b l2 na nb rfl hna hnb

theorem isList_iff_invariant {s : State} {head : Ptr} {es : List Entry} :
    IsList s head es ↔ ListInvariant s head es := by
  constructor
  · rintro ⟨hh, hseg, hna, hns⟩
    refine ⟨hh, fun e he => hseg.node_eq e he, ?_, ?_, ?_, hna, hns⟩
    · intro e rest n hes hn
      subst hes
      rw [hseg.1] at hn
      cases hn; rfl
    · intro init e n hes hn
      subst hes
      obtain ⟨_, h2, _⟩ := (Seg.append_iff s init [e] none none).1 hseg
      rw [h2] at hn
      cases hn; rfl
    · intro l1 a b l2 na nb hes ha hb
      subst hes
      obtain ⟨_, h2, _, h3, _⟩ := (Seg.append_iff s l1 (a :: b :: l2) none none).1 hseg
      rw [h2] at ha
      rw [h3] at hb
      cases ha; cases hb
      exact ⟨rfl, rfl⟩
  · intro h
    exact ⟨h.head_eq, seg_of_links es none none h.live h.head_prev h.tail_next h.adjacent,
      h.nodup_addr, h.nodup_str⟩

theorem wellFormed_iff {s : State} {head : Ptr} :
    WellFormed s head ↔ ∃ es, IsList s head es :=
  ⟨fun ⟨es, h⟩ => ⟨es, isList_iff_invariant.2 h⟩, fun ⟨es, h⟩ => ⟨es, isList_iff_invariant.1 h⟩⟩

theorem IsList.toWellFormed {s : State} {head : Ptr} {l : List Entry} (h : IsList s head l) :
    WellFormed s head := ⟨l, isList_iff_invariant.1 h⟩

/-! ## Memory operations on a segment -/

theorem Seg.node_live {s : State} :
    ∀ {es : List Entry} {prev nxt : Ptr}, Seg s prev es nxt →
      ∀ x ∈ es, s.nodes x.addr ≠ none ∧ s.strs x.str = some x.val
  | [], _, _, _, x, hx => by simp at hx
  | e :: es, _, _, ⟨h1, h2, h3⟩, x, hx => by
    rcases List.mem_cons.1 hx with rfl | hx
    · exact ⟨by simp [h1], h2⟩
    · exact Seg.node_live h3 x hx

theorem Seg.addr_ne {s : State} {es : List Entry} {prev nxt : Ptr} (h : Seg s prev es nxt)
    {p : Nat} (hp : s.nodes p = none) : p ∉ es.map Entry.addr := by
  intro hm
  obtain ⟨x, hx, rfl⟩ := List.mem_map.1 hm
  exact (h.node_live x hx).1 hp

theorem Seg.str_ne {s : State} {es : List Entry} {prev nxt : Ptr} (h : Seg s prev es nxt)
    {d : Nat} (hd : s.strs d = none) : d ∉ es.map Entry.str := by
  intro hm
  obtain ⟨x, hx, rfl⟩ := List.mem_map.1 hm
  have := (h.node_live x hx).2
  simp [hd] at this

/-- Replacing the `prev` field of the first node of a segment. -/
theorem Seg.set_prev {s t : State} {e : Entry} {es : List Entry} {prev nxt : Ptr} (pv : Ptr)
    (h : Seg s prev (e :: es) nxt) (hnd : ((e :: es).map Entry.addr).Nodup)
    (hn : ∀ x ∈ e :: es, t.nodes x.addr =
      set s.nodes e.addr (some { data := some e.str, next := headOr es nxt, prev := pv }) x.addr)
    (hs : ∀ x ∈ e :: es, t.strs x.str = s.strs x.str) :
    Seg t pv (e :: es) nxt := by
  obtain ⟨_, h2, h3⟩ := h
  have he : e ∈ e :: es := List.mem_cons_self _ _
  refine ⟨by simp [hn e he], by rw [hs e he]; exact h2, ?_⟩
  refine Seg.frame es _ _ (fun x hx => ⟨?_, hs x (List.mem_cons_of_mem _ hx)⟩) h3
  have hne : x.addr ≠ e.addr := by
    intro heq
    have h1 := (List.nodup_cons.1 hnd).1
    exact h1 (heq ▸ List.mem_map_of_mem Entry.addr hx)
  rw [hn x (List.mem_cons_of_mem _ hx), set_ne _ _ hne]

/-- Replacing the `next` field of the last node of a segment. -/
theorem Seg.set_next {s t : State} {a : Entry} (nx : Ptr) :
    ∀ {es : List Entry} {prev nxt : Ptr},
      Seg s prev (es ++ [a]) nxt → ((es ++ [a]).map Entry.addr).Nodup →
      (∀ x ∈ es ++ [a], t.nodes x.addr =
        set s.nodes a.addr (some { data := some a.str, next := nx, prev := lastOr es prev })
          x.addr) →
      (∀ x ∈ es ++ [a], t.strs x.str = s.strs x.str) →
      Seg t prev (es ++ [a]) nx := by
  intro es
  induction es with
  | nil =>
    intro prev nxt h _ hn hs
    obtain ⟨_, h2, _⟩ := h
    have ha : a ∈ [] ++ [a] := by simp
    refine ⟨by simp [hn a ha], ?_, trivial⟩
    rw [hs a ha]; exact h2
  | cons e es ih =>
    intro prev nxt h hnd hn hs
    obtain ⟨h1, h2, h3⟩ := h
    have hnd2 : ((es ++ [a]).map Entry.addr).Nodup := (List.nodup_cons.1 hnd).2
    have hne : e.addr ≠ a.addr := by
      intro heq
      have := (List.nodup_cons.1 hnd).1
      apply this
      simp [heq]
    have he : e ∈ e :: es ++ [a] := by simp
    refine ⟨?_, ?_, ?_⟩
    · rw [hn e he, set_ne _ _ hne]
      have hh : headOr (es ++ [a]) nx = headOr (es ++ [a]) nxt := by
        rw [headOr_append, headOr_append]; rfl
      show s.nodes e.addr = some { data := some e.str, next := headOr (es ++ [a]) nx, prev := prev }
      rw [hh]; exact h1
    · rw [hs e he]; exact h2
    · exact ih h3 hnd2 (fun x hx => hn x (List.mem_cons_of_mem _ hx))
        (fun x hx => hs x (List.mem_cons_of_mem _ hx))

/-! ## Specifications of the list operations on the invariant -/

theorem storeNext_eq {s : State} {p : Nat} {n : Node} (v : Ptr) (h : s.nodes p = some n) :
    s.storeNext p v = some { s with nodes := set s.nodes p (some { n with next := v }) } := by
  simp [State.storeNext, h]

theorem storePrev_eq {s : State} {p : Nat} {n : Node} (v : Ptr) (h : s.nodes p = some n) :
    s.storePrev p v = some { s with nodes := set s.nodes p (some { n with prev := v }) } := by
  simp [State.storePrev, h]

theorem freeNode_eq {s : State} {p : Nat} {n : Node} (h : s.nodes p = some n) :
    s.freeNode p = some { s with nodes := set s.nodes p none } := by
  simp [State.freeNode, h]

theorem freeStr_eq {s : State} {d : Nat} {v : String} (h : s.strs d = some v) :
    s.freeStr (some d) = some { s with strs := set s.strs d none } := by
  simp [State.freeStr, h]

theorem insertAtBeginning_cons_eq {s : State} {p h : Nat} {n : Node} (d : Nat) (v : String)
    (hp : s.nodes p = none) (hh : s.nodes h = some n) :
    insertAtBeginning s ⟨some p, some d⟩ (some h) v =
      some ({ s with
        nodes := set (set (set s.nodes p (some { data := some d, next := none, prev := none }))
          p (some { data := some d, next := some h, prev := none }))
          h (some { n with prev := some p }),
        strs := set s.strs d (some v) }, some p) := by
  have hne : h ≠ p := fun e => by rw [e, hp] at hh; cases hh
  simp only [insertAtBeginning, createNode]
  rw [storeNext_eq (some h) (set_same _ _ _)]
  simp only [Option.bind_eq_bind, Option.some_bind]
  rw [storePrev_eq (some p) (n := n) (by simp [set_ne _ _ hne, hh])]
  rfl

theorem insertAtBeginning_isList {s : State} {head : Ptr} {es : List Entry}
    (p d : Nat) (v : String)
    (h : IsList s head es) (hp : s.nodes p = none) (hd : s.strs d = none) :
    ∃ t, insertAtBeginning s ⟨some p, some d⟩ head v = some (t, some p) ∧
      IsList t (some p) (⟨p, d, v⟩ :: es) ∧ t.out = s.out ∧ t.err = s.err ∧
      (∀ q, q ≠ p → q ∉ es.map Entry.addr → t.nodes q = s.nodes q) ∧
      (∀ q, q ≠ d → t.strs q = s.strs q) := by
  obtain ⟨hh, hseg, hna, hns⟩ := h
  have hpn : p ∉ es.map Entry.addr := hseg.addr_ne hp
  have hdn : d ∉ es.map Entry.str := hseg.str_ne hd
  cases es with
  | nil =>
    subst hh
    refine ⟨_, rfl, ⟨rfl, ⟨by simp [createNode], by simp [createNode], trivial⟩, by simp, by simp⟩,
      rfl, rfl, fun q hq _ => by simp [createNode, set_ne _ _ hq],
      fun q hq => by simp [createNode, set_ne _ _ hq]⟩
  | cons e es =>
    subst hh
    have hep : e.addr ≠ p := fun h => hpn (by simp [← h])
    have hed : e.str ≠ d := fun h => hdn (by simp [← h])
    obtain ⟨h1, h2, h3⟩ := hseg
    refine ⟨_, insertAtBeginning_cons_eq d v hp h1, ⟨rfl, ⟨?_, ?_, ?_⟩, ?_, ?_⟩, rfl, rfl,
      fun q hq hq2 => ?_, fun q hq => by simp [set_ne _ _ hq]⟩
    · simp [set_ne _ _ hep.symm]
    · simp
    · refine Seg.set_prev (some p) (s := s) ⟨h1, h2, h3⟩ hna ?_ ?_
      · intro x hx
        have hxp : x.addr ≠ p := fun h => hpn (h ▸ List.mem_map_of_mem Entry.addr hx)
        by_cases hq : x.addr = e.addr
        · rw [hq]; simp
        · simp [set_ne _ _ hq, set_ne _ _ hxp]
      · intro x hx
        have hxd : x.str ≠ d := fun h => hdn (h ▸ List.mem_map_of_mem Entry.str hx)
        simp [set_ne _ _ hxd]
    · exact List.nodup_cons.2 ⟨hpn, hna⟩
    · exact List.nodup_cons.2 ⟨hdn, hns⟩
    · have hqe : q ≠ e.addr := fun h => hq2 (by simp [h])
      simp [set_ne _ _ hqe, set_ne _ _ hq]

theorem eq_nil_or_snoc (es : List Entry) : es = [] ∨ ∃ init a, es = init ++ [a] := by
  rcases List.eq_nil_or_concat es with h | ⟨l, b, h⟩
  · exact Or.inl h
  · exact Or.inr ⟨l, b, by rw [h, List.concat_eq_append]⟩

theorem insertAtEnd_cons_eq {s : State} {p h c : Nat} {n : Node} (fuel d : Nat) (v : String)
    (hp : s.nodes p = none) (hc : s.nodes c = some n)
    (ht : seekTail fuel (createNode s ⟨some p, some d⟩ v).1 h = some c) :
    insertAtEnd fuel s ⟨some p, some d⟩ (some h) v =
      some ({ s with
        nodes := set (set (set s.nodes p (some { data := some d, next := none, prev := none }))
          c (some { n with next := some p }))
          p (some { data := some d, next := none, prev := some c }),
        strs := set s.strs d (some v) }, some h) := by
  have hne : c ≠ p := fun e => by rw [e, hp] at hc; cases hc
  simp only [insertAtEnd]
  simp only [createNode] at ht ⊢
  rw [ht]
  simp only [Option.bind_eq_bind, Option.some_bind]
  rw [storeNext_eq (some p) (n := n) (by simp [set_ne _ _ hne, hc])]
  simp only [Option.bind_eq_bind, Option.some_bind]
  rw [storePrev_eq (some c)
    (n := { data := some d, next := none, prev := none }) (by simp [set_ne _ _ hne.symm])]
  rfl

theorem insertAtEnd_isList {s : State} {head : Ptr} {es : List Entry}
    (fuel p d : Nat) (v : String)
    (h : IsList s head es) (hf : es.length ≤ fuel)
    (hp : s.nodes p = none) (hd : s.strs d = none) :
    ∃ t, insertAtEnd fuel s ⟨some p, some d⟩ head v = some (t, headOr es (some p)) ∧
      IsList t (headOr es (some p)) (es ++ [Entry.mk p d v]) ∧ t.out = s.out ∧ t.err = s.err ∧
      (∀ q, q ≠ p → q ∉ es.map Entry.addr → t.nodes q = s.nodes q) ∧
      (∀ q, q ≠ d → t.strs q = s.strs q) := by
  obtain ⟨hh, hseg, hna, hns⟩ := h
  have hpn : p ∉ es.map Entry.addr := hseg.addr_ne hp
  have hdn : d ∉ es.map Entry.str := hseg.str_ne hd
  have hfr : ∀ x ∈ es, x.addr ≠ p ∧ x.str ≠ d := fun x hx =>
    ⟨fun h => hpn (h ▸ List.mem_map_of_mem Entry.addr hx),
     fun h => hdn (h ▸ List.mem_map_of_mem Entry.str hx)⟩
  have hnd1 : ((es ++ [Entry.mk p d v]).map Entry.addr).Nodup := by
    rw [List.map_append, List.nodup_append]
    refine ⟨hna, by simp, ?_⟩
    simpa using hpn
  have hnd2 : ((es ++ [Entry.mk p d v]).map Entry.str).Nodup := by
    rw [List.map_append, List.nodup_append]
    refine ⟨hns, by simp, ?_⟩
    simpa using hdn
  rcases eq_nil_or_snoc es with rfl | ⟨init, a, rfl⟩
  · subst hh
    refine ⟨_, rfl, ⟨rfl, ⟨by simp [createNode], by simp [createNode], trivial⟩, by simp, by simp⟩,
      rfl, rfl, fun q hq _ => by simp [createNode, set_ne _ _ hq],
      fun q hq => by simp [createNode, set_ne _ _ hq]⟩
  · have hhead : headOr (init ++ [a]) (some p) = headOr (init ++ [a]) none := by
      rw [headOr_append, headOr_append]; rfl
    obtain ⟨hs1, hs2⟩ := (Seg.append_iff s init [a] none none).1 hseg
    obtain ⟨hca, hsa, _⟩ := hs2
    -- the tail-seeking loop runs on the state left by `createNode`
    have hseg1 : Seg (createNode s ⟨some p, some d⟩ v).1 none (init ++ [a]) none :=
      Seg.frame _ _ _ (fun x hx => by
        simp [createNode, set_ne _ _ (hfr x hx).1, set_ne _ _ (hfr x hx).2]) hseg
    obtain ⟨e, es0, hes⟩ : ∃ e es0, init ++ [a] = e :: es0 := by
      cases init with
      | nil => exact ⟨a, [], rfl⟩
      | cons e l => exact ⟨e, l ++ [a], rfl⟩
    have hlast : lastOr es0 (some e.addr) = some a.addr := by
      have : lastOr (init ++ [a]) none = some a.addr := by rw [lastOr_append]; rfl
      rw [hes] at this; exact this
    have hhe : head = some e.addr := by rw [hh, hes]; rfl
    obtain ⟨k, hk⟩ : ∃ k, fuel = es0.length + 1 + k := by
      have : (init ++ [a]).length = es0.length + 1 := by rw [hes]; rfl
      exact ⟨fuel - (es0.length + 1), by omega⟩
    have ht : seekTail fuel (createNode s ⟨some p, some d⟩ v).1 e.addr = some a.addr := by
      rw [hk, seekTail_seg _ es0 e none k (hes ▸ hseg1), hlast]
    rw [hhead, ← hh, hhe]
    refine ⟨_, insertAtEnd_cons_eq fuel d v hp hca ht, ⟨?_, ?_, hnd1, hnd2⟩, rfl, rfl,
      fun q hq hq2 => ?_, fun q hq => by simp [set_ne _ _ hq]⟩
    · rw [← hhe, hh, headOr_append, headOr_append, headOr_append]; rfl
    · rw [Seg.append_iff]
      have hap : a.addr ≠ p := (hfr a (by simp)).1
      constructor
      · refine Seg.set_next (s := s) (some p) hseg hna ?_ ?_
        · intro x hx
          have hxp := (hfr x hx).1
          simp only [set_ne _ _ hxp]
          by_cases hxa : x.addr = a.addr
          · rw [hxa]; simp
          · simp [set_ne _ _ hxa, set_ne _ _ hxp]
        · intro x hx
          simp [set_ne _ _ (hfr x hx).2]
      · refine ⟨?_, by simp, trivial⟩
        rw [lastOr_append]
        simp
    · have hqa : q ≠ a.addr := fun h => hq2 (by simp [h])
      simp [set_ne _ _ hqa, set_ne _ _ hq]

theorem findNode_isList_absent {s : State} {head : Ptr} {es : List Entry} (fuel : Nat)
    (v : String) (h : IsList s head es) (hf : es.length < fuel) (hv : v ∉ values es) :
    findNode fuel s head v = some none := by
  obtain ⟨hh, hseg, _, _⟩ := h
  obtain ⟨k, rfl⟩ : ∃ k, fuel = es.length + (k + 1) := ⟨fuel - es.length - 1, by omega⟩
  rw [hh, findNode_seg_skip s v es none none (k + 1) hseg hv]
  rfl

theorem findNode_isList_present {s : State} {head : Ptr} (l1 l2 : List Entry) (e : Entry)
    (fuel : Nat) (h : IsList s head (l1 ++ e :: l2)) (hf : l1.length < fuel)
    (hv : e.val ∉ values l1) :
    findNode fuel s head e.val = some (some e.addr) := by
  obtain ⟨hh, hseg, _, _⟩ := h
  obtain ⟨hs1, hs2⟩ := (Seg.append_iff s l1 (e :: l2) none none).1 hseg
  obtain ⟨k, rfl⟩ : ∃ k, fuel = l1.length + (k + 1) := ⟨fuel - l1.length - 1, by omega⟩
  rw [hh, headOr_append, findNode_seg_skip s e.val l1 none _ (k + 1) hs1 hv]
  exact findNode_seg_hit s e l2 _ none k hs2

theorem deleteNode_absent {s : State} {head : Ptr} {es : List Entry} (fuel : Nat)
    (v : String) (h : IsList s head es) (hf : es.length < fuel) (hv : v ∉ values es) :
    deleteNode fuel s head v = some ({ s with out := s.out ++ [notFoundNotice v] }, head) := by
  simp [deleteNode, findNode_isList_absent fuel v h hf hv]

/-- The first relinking step of `deleteNode`, seen from the nodes before the
deleted one. -/
theorem unlinkPrevSide_seg {s : State} {l1 : List Entry} {prev nxt : Ptr} (d nx : Ptr)
    (h : Seg s prev l1 nxt) (hnd : (l1.map Entry.addr).Nodup) :
    ∃ t, unlinkPrevSide s { data := d, next := nx, prev := lastOr l1 none } = some t ∧
      Seg t prev l1 nx ∧ t.strs = s.strs ∧ t.out = s.out ∧ t.err = s.err ∧
      ∀ q, q ∉ l1.map Entry.addr → t.nodes q = s.nodes q := by
  rcases eq_nil_or_snoc l1 with rfl | ⟨init, a, rfl⟩
  · exact ⟨s, rfl, trivial, rfl, rfl, rfl, fun _ _ => rfl⟩
  · have hl : lastOr (init ++ [a]) none = some a.addr := by rw [lastOr_append]; rfl
    obtain ⟨_, ha, _, _⟩ := (Seg.append_iff s init [a] prev nxt).1 h
    let n : Node := { data := some a.str, next := nx, prev := lastOr init prev }
    refine ⟨{ s with nodes := set s.nodes a.addr (some n) }, ?_, ?_, rfl, rfl, rfl, ?_⟩
    · simp only [unlinkPrevSide, hl]
      exact storeNext_eq nx ha
    · exact Seg.set_next (s := s) nx h hnd (fun x _ => rfl) (fun x _ => rfl)
    · intro q hq
      have : q ≠ a.addr := fun h => hq (by simp [h])
      simp [set_ne _ _ this]

/-- The second relinking step of `deleteNode`, seen from the nodes after the
deleted one. -/
theorem unlinkNextSide_seg {s : State} {l2 : List Entry} {prev nxt : Ptr} (d pv : Ptr)
    (h : Seg s prev l2 nxt) (hnd : (l2.map Entry.addr).Nodup) :
    ∃ t, unlinkNextSide s { data := d, next := headOr l2 none, prev := pv } = some t ∧
      Seg t pv l2 nxt ∧ t.strs = s.strs ∧ t.out = s.out ∧ t.err = s.err ∧
      ∀ q, q ∉ l2.map Entry.addr → t.nodes q = s.nodes q := by
  cases l2 with
  | nil => exact ⟨s, rfl, trivial, rfl, rfl, rfl, fun _ _ => rfl⟩
  | cons b rest =>
    let n : Node := { data := some b.str, next := headOr rest nxt, prev := pv }
    refine ⟨{ s with nodes := set s.nodes b.addr (some n) }, ?_, ?_, rfl, rfl, rfl, ?_⟩
    · simp only [unlinkNextSide, headOr_cons]
      exact storePrev_eq pv h.1
    · exact Seg.set_prev (s := s) pv h hnd (fun x _ => rfl) (fun x _ => rfl)
    · intro q hq
      have : q ≠ b.addr := fun h => hq (by simp [h])
      simp [set_ne _ _ this]

theorem nodup_middle {α : Type} {l1 l2 : List α} {a : α} (h : (l1 ++ a :: l2).Nodup) :
    l1.Nodup ∧ l2.Nodup ∧ a ∉ l1 ∧ a ∉ l2 ∧ (∀ x ∈ l1, x ∉ l2) ∧ (l1 ++ l2).Nodup := by
  have h2 := h
  rw [List.nodup_append] at h
  obtain ⟨h1, hc, hd⟩ := h
  obtain ⟨ha2, hl2⟩ := List.nodup_cons.1 hc
  refine ⟨h1, hl2, fun hx => hd hx (List.mem_cons_self _ _), ha2,
    fun x hx hx2 => hd hx (List.mem_cons_of_mem _ hx2), ?_⟩
  rw [List.nodup_append]
  exact ⟨h1, hl2, fun x hx hx2 => hd hx (List.mem_cons_of_mem _ hx2)⟩

/-- Deleting the first entry that holds the value: the result is the list
without that entry, and the two blocks of the entry are released. -/
theorem deleteNode_isList {s : State} {head : Ptr} (l1 l2 : List Entry) (e : Entry)
    (fuel : Nat) (h : IsList s head (l1 ++ e :: l2)) (hf : l1.length < fuel)
    (hv : e.val ∉ values l1) :
    ∃ t, deleteNode fuel s head e.val = some (t, headOr (l1 ++ l2) none) ∧
      IsList t (headOr (l1 ++ l2) none) (l1 ++ l2) ∧ t.out = s.out ∧ t.err = s.err ∧
      t.nodes e.addr = none ∧ t.strs e.str = none ∧
      (∀ q, q ∉ (l1 ++ e :: l2).map Entry.addr → t.nodes q = s.nodes q) ∧
      (∀ q, q ≠ e.str → t.strs q = s.strs q) := by
  have hfind := findNode_isList_present l1 l2 e fuel h hf hv
  obtain ⟨hh, hseg, hna, hns⟩ := h
  obtain ⟨hs1, he, hes, hs3⟩ := (Seg.append_iff s l1 (e :: l2) none none).1 hseg
  rw [List.map_append, List.map_cons] at hna hns
  obtain ⟨na1, na2, nae1, nae2, nad, na12⟩ := nodup_middle hna
  obtain ⟨ns1, ns2, nse1, nse2, nsd, ns12⟩ := nodup_middle hns
  -- first relinking step
  obtain ⟨s1, hA, segA, strsA, outA, errA, frA⟩ :=
    unlinkPrevSide_seg (some e.str) (headOr l2 none) hs1 na1
  have he1 : s1.nodes e.addr = some
      { data := some e.str, next := headOr l2 none, prev := lastOr l1 none } := by
    rw [frA _ nae1]; exact he
  have hs3A : Seg s1 (some e.addr) l2 none :=
    Seg.frame _ _ _ (fun x hx => ⟨frA _ (fun hm => nad _ hm (List.mem_map_of_mem _ hx)),
      by rw [strsA]⟩) hs3
  -- second relinking step
  obtain ⟨s2, hB, segB, strsB, outB, errB, frB⟩ :=
    unlinkNextSide_seg (some e.str) (lastOr l1 none) hs3A na2
  have he2 : s2.nodes e.addr = some
      { data := some e.str, next := headOr l2 none, prev := lastOr l1 none } := by
    rw [frB _ nae2]; exact he1
  have segA2 : Seg s2 none l1 (headOr l2 none) :=
    Seg.frame _ _ _ (fun x hx => ⟨frB _ (nad _ (List.mem_map_of_mem _ hx)),
      by rw [strsB]⟩) segA
  have hes2 : s2.strs e.str = some e.val := by rw [strsB, strsA]; exact hes
  -- the returned head
  have hnew : (if some e.addr = head then (s2.nodes e.addr).map Node.next else some head)
      = some (headOr (l1 ++ l2) none) := by
    cases l1 with
    | nil => simp [hh, he2]
    | cons a l =>
      have : e.addr ≠ a.addr := fun h => nae1 (by simp [h])
      simp [hh, this]
  let t : State :=
    { s2 with strs := set s2.strs e.str none, nodes := set s2.nodes e.addr none }
  refine ⟨t, ?_, ⟨rfl, ?_, ?_, ?_⟩, ?_, ?_, ?_, ?_, ?_, ?_⟩
  · simp only [deleteNode, hfind, he, Option.bind_eq_bind, Option.some_bind, hA, he1, hB]
    rw [hnew]
    simp only [Option.some_bind, he2, freeStr_eq hes2]
    rw [freeNode_eq (n := { data := some e.str, next := headOr l2 none, prev := lastOr l1 none })
      (by exact he2)]
    rfl
  · rw [Seg.append_iff]
    constructor
    · refine Seg.frame _ _ _ (fun x hx => ?_) segA2
      have h1 : x.addr ≠ e.addr := fun h => nae1 (h ▸ List.mem_map_of_mem Entry.addr hx)
      have h2 : x.str ≠ e.str := fun h => nse1 (h ▸ List.mem_map_of_mem Entry.str hx)
      simp [t, set_ne _ _ h1, set_ne _ _ h2]
    · refine Seg.frame _ _ _ (fun x hx => ?_) segB
      have h1 : x.addr ≠ e.addr := fun h => nae2 (h ▸ List.mem_map_of_mem Entry.addr hx)
      have h2 : x.str ≠ e.str := fun h => nse2 (h ▸ List.mem_map_of_mem Entry.str hx)
      simp [t, set_ne _ _ h1, set_ne _ _ h2]
  · rw [List.map_append]; exact na12
  · rw [List.map_append]; exact ns12
  · show s2.out = s.out
    rw [outB, outA]
  · show s2.err = s.err
    rw [errB, errA]
  · simp [t]
  · simp [t]
  · intro q hq
    rw [List.map_append, List.map_cons] at hq
    have h1 : q ≠ e.addr := fun h => hq (by simp [h])
    have h2 : q ∉ l1.map Entry.addr := fun h => hq (List.mem_append_left _ h)
    have h3 : q ∉ l2.map Entry.addr :=
      fun h => hq (List.mem_append_right _ (List.mem_cons_of_mem _ h))
    show set s2.nodes e.addr none q = s.nodes q
    rw [set_ne _ _ h1, frB _ h3, frA _ h2]
  · intro q hq
    show set s2.strs e.str none q = s.strs q
    rw [set_ne _ _ hq, strsB, strsA]

/-! ## Traversals of a well-formed list -/

theorem forward_isList {s : State} {head : Ptr} {es : List Entry} (fuel : Nat)
    (h : IsList s head es) (hf : es.length < fuel) :
    forward fuel s head = some (values es) := by
  obtain ⟨hh, hseg, _, _⟩ := h
  obtain ⟨k, rfl⟩ : ∃ k, fuel = es.length + (k + 1) := ⟨fuel - es.length - 1, by omega⟩
  rw [hh, forward_seg s es none none (k + 1) hseg]
  simp [forward]

theorem lastOr_some : ∀ (es : List Entry) (a : Nat), ∃ b, lastOr es (some a) = some b
  | [], a => ⟨a, rfl⟩
  | e :: es, _ => lastOr_some es e.addr

theorem backward_isList {s : State} {head : Ptr} {es : List Entry} (fuel : Nat)
    (h : IsList s head es) (hf : es.length < fuel) :
    backward fuel s head = some (values es).reverse := by
  obtain ⟨hh, hseg, _, _⟩ := h
  obtain ⟨k, rfl⟩ : ∃ k, fuel = es.length + (k + 1) := ⟨fuel - es.length - 1, by omega⟩
  cases es with
  | nil => subst hh; rfl
  | cons e es =>
    subst hh
    have h1 : seekTail ((e :: es).length + (k + 1)) s e.addr = lastOr es (some e.addr) := by
      have := seekTail_seg s es e none (k + 1) hseg
      rw [← this]; congr 1
    have h2 := backwardFrom_seg s (e :: es) none none (k + 1) hseg
    rw [lastOr_cons] at h2
    obtain ⟨tl, hl⟩ := lastOr_some es e.addr
    rw [hl] at h1 h2
    simp only [backward, headOr_cons, h1, Option.bind_eq_bind, Option.some_bind, h2]
    simp [backwardFrom]

theorem forward_length_lt : ∀ (fuel : Nat) (s : State) (p : Ptr) (vs : List String),
    forward fuel s p = some vs → vs.length < fuel
  | 0, _, _, _, h => by simp [forward] at h
  | _ + 1, _, none, vs, h => by
    simp [forward] at h
    subst h; simp
  | fuel + 1, s, some c, vs, h => by
    simp only [forward] at h
    cases hn : s.nodes c with
    | none => simp [hn] at h
    | some n =>
      cases hd : n.data with
      | none => simp [hn, hd] at h
      | some d =>
        cases hv : s.strs d with
        | none => simp [hn, hd, hv] at h
        | some v =>
          cases hr : forward fuel s n.next with
          | none => simp [hn, hd, hv, hr] at h
          | some rest =>
            simp [hn, hd, hv, hr] at h
            subst h
            have := forward_length_lt fuel s n.next rest hr
            simp; omega

/-- More fuel does not change a traversal that has finished. -/
theorem forward_mono : ∀ (fuel k : Nat) (s : State) (p : Ptr) (vs : List String),
    forward fuel s p = some vs → forward (fuel + k) s p = some vs
  | 0, _, _, _, _, h => by simp [forward] at h
  | fuel + 1, k, _, none, vs, h => by
    have : fuel + 1 + k = (fuel + k) + 1 := by omega
    rw [this]
    simpa [forward] using h
  | fuel + 1, k, s, some c, vs, h => by
    have : fuel + 1 + k = (fuel + k) + 1 := by omega
    rw [this]
    simp only [forward] at h ⊢
    cases hn : s.nodes c with
    | none => simp [hn] at h
    | some n =>
      cases hd : n.data with
      | none => simp [hn, hd] at h
      | some d =>
        cases hv : s.strs d with
        | none => simp [hn, hd, hv] at h
        | some v =>
          cases hr : forward fuel s n.next with
          | none => simp [hn, hd, hv, hr] at h
          | some rest =>
            simp [hn, hd, hv, hr] at h
            simp [hn, hd, hv, forward_mono fuel k s n.next rest hr, h]

/-- A finished forward traversal of a well-formed list lists the values of
its entries, and the fuel exceeded their number. -/
theorem forward_inv {s : State} {head : Ptr} {es : List Entry} {fuel : Nat}
    {vs : List String} (h : IsList s head es) (hf : forward fuel s head = some vs) :
    vs = values es ∧ es.length < fuel := by
  have h1 := forward_mono fuel (es.length + 1) s head vs hf
  rw [forward_isList (fuel + (es.length + 1)) h (by omega)] at h1
  have h2 := forward_length_lt fuel s head vs hf
  have h3 : vs = values es := (Option.some.inj h1).symm
  refine ⟨h3, ?_⟩
  rw [h3, length_values] at h2
  exact h2

theorem seekTail_mono : ∀ (fuel k : Nat) (s : State) (p r : Nat),
    seekTail fuel s p = some r → seekTail (fuel + k) s p = some r
  | 0, _, _, _, _, h => by simp [seekTail] at h
  | fuel + 1, k, s, p, r, h => by
    have : fuel + 1 + k = (fuel + k) + 1 := by omega
    rw [this]
    simp only [seekTail] at h ⊢
    cases hn : s.nodes p with
    | none => simp [hn] at h
    | some n =>
      cases hx : n.next with
      | none => simpa [hn, hx] using h
      | some q =>
        simp only [hn, hx] at h ⊢
        exact seekTail_mono fuel k s q r h

theorem findNode_mono : ∀ (fuel k : Nat) (s : State) (p : Ptr) (v : String) (r : Ptr),
    findNode fuel s p v = some r → findNode (fuel + k) s p v = some r
  | 0, _, _, _, _, _, h => by simp [findNode] at h
  | fuel + 1, k, _, none, v, r, h => by
    have : fuel + 1 + k = (fuel + k) + 1 := by omega
    rw [this]
    simpa [findNode] using h
  | fuel + 1, k, s, some c, v, r, h => by
    have : fuel + 1 + k = (fuel + k) + 1 := by omega
    rw [this]
    simp only [findNode] at h ⊢
    cases hn : s.nodes c with
    | none => simp [hn] at h
    | some n =>
      cases hd : n.data with
      | none => simp [hn, hd] at h
      | some d =>
        cases hv : s.strs d with
        | none => simp [hn, hd, hv] at h
        | some w =>
          by_cases hc : strcmp w v = 0
          · simpa [hn, hd, hv, hc] using h
          · simp only [hn, hd, hv, hc, Option.some_bind, if_false] at h ⊢
            exact findNode_mono fuel k s n.next v r h

theorem split_first (v : String) :
    ∀ es : List Entry, v ∈ values es →
      ∃ l1 e l2, es = l1 ++ e :: l2 ∧ e.val = v ∧ v ∉ values l1
  | [], h => by simp at h
  | e :: es, h => by
    by_cases he : e.val = v
    · exact ⟨[], e, es, rfl, he, by simp⟩
    · have h2 : v ∈ values es := by
        rcases List.mem_cons.1 h with h | h
        · exact absurd h.symm he
        · exact h
      obtain ⟨l1, x, l2, rfl, hx, hl⟩ := split_first v es h2
      refine ⟨e :: l1, x, l2, rfl, hx, ?_⟩
      intro hm
      rcases List.mem_cons.1 hm with h | h
      · exact he h.symm
      · exact hl h

theorem values_erase {l1 l2 : List Entry} {e : Entry} (hv : e.val ∉ values l1) :
    (values (l1 ++ e :: l2)).erase e.val = values (l1 ++ l2) := by
  rw [values_append, values_cons, List.erase_append_right _ hv, List.erase_cons_head,
    values_append]

theorem headOr_getD {head : Ptr} {es : List Entry} (p : Nat) (h : head = headOr es none) :
    headOr es (some p) = some (head.getD p) := by
  cases es <;> simp [h]

theorem sample_isList : IsList sampleState (some 1) sampleEntries :=
  ⟨rfl, ⟨rfl, rfl, rfl, rfl, rfl, rfl, trivial⟩, by decide, by decide⟩

theorem sample_invariant : ListInvariant sampleState (some 1) sampleEntries :=
  isList_iff_invariant.1 sample_isList

theorem sample_wellFormed : WellFormed sampleState (some 1) := sample_isList.toWellFormed

/-! ## Preservation of the invariant -/

theorem isList_nil (s : State) : IsList s none [] :=
  ⟨rfl, trivial, List.nodup_nil, List.nodup_nil⟩

theorem IsList.congr {s t : State} {head : Ptr} {es : List Entry} (h : IsList s head es)
    (hn : t.nodes = s.nodes) (hs : t.strs = s.strs) : IsList t head es :=
  ⟨h.1, Seg.frame _ _ _ (fun _ _ => by rw [hn, hs]; exact ⟨rfl, rfl⟩) h.2.1, h.2.2.1, h.2.2.2⟩

theorem insertAtEnd_mono {fuel : Nat} (k : Nat) {s : State} {a : Alloc} {head : Ptr}
    {v : String} {r : State × Ptr} (h : insertAtEnd fuel s a head v = some r) :
    insertAtEnd (fuel + k) s a head v = some r := by
  unfold insertAtEnd at h ⊢
  rcases hc : createNode s a v with ⟨s1, _ | newNode⟩
  · rw [hc] at h; exact h
  · rw [hc] at h
    cases head with
    | none => exact h
    | some hd =>
      simp only at h ⊢
      cases ht : seekTail fuel s1 hd with
      | none => simp [ht] at h
      | some c =>
        rw [seekTail_mono fuel k s1 hd c ht]
        rw [ht] at h
        exact h

theorem deleteNode_mono {fuel : Nat} (k : Nat) {s : State} {head : Ptr}
    {v : String} {r : State × Ptr} (h : deleteNode fuel s head v = some r) :
    deleteNode (fuel + k) s head v = some r := by
  unfold deleteNode at h ⊢
  cases hf : findNode fuel s head v with
  | none => simp [hf] at h
  | some x =>
    rw [findNode_mono fuel k s head v x hf]
    rw [hf] at h
    exact h

theorem wellFormed_insertAtBeginning {s t : State} {head newHead : Ptr} {p d : Nat}
    {v : String} (wf : WellFormed s head) (hp : s.nodes p = none) (hd : s.strs d = none)
    (h : insertAtBeginning s ⟨some p, some d⟩ head v = some (t, newHead)) :
    WellFormed t newHead := by
  obtain ⟨es, hl⟩ := wellFormed_iff.1 wf
  obtain ⟨t0, ht, hl0, _⟩ := insertAtBeginning_isList p d v hl hp hd
  rw [ht] at h
  cases h
  exact hl0.toWellFormed

theorem wellFormed_insertAtEnd {s t : State} {head newHead : Ptr} {p d fuel : Nat}
    {v : String} (wf : WellFormed s head) (hp : s.nodes p = none) (hd : s.strs d = none)
    (h : insertAtEnd fuel s ⟨some p, some d⟩ head v = some (t, newHead)) :
    WellFormed t newHead := by
  obtain ⟨es, hl⟩ := wellFormed_iff.1 wf
  obtain ⟨t0, ht, hl0, _⟩ :=
    insertAtEnd_isList (fuel + es.length) p d v hl (by omega) hp hd
  rw [insertAtEnd_mono es.length h] at ht
  cases ht
  exact hl0.toWellFormed

theorem wellFormed_deleteNode {s t : State} {head newHead : Ptr} {fuel : Nat}
    {v : String} (wf : WellFormed s head)
    (h : deleteNode fuel s head v = some (t, newHead)) :
    WellFormed t newHead := by
  obtain ⟨es, hl⟩ := wellFormed_iff.1 wf
  have h2 := deleteNode_mono (es.length + 1) h
  by_cases hv : v ∈ values es
  · obtain ⟨l1, e, l2, rfl, rfl, hl1⟩ := split_first v es hv
    obtain ⟨t0, ht, hl0, _⟩ :=
      deleteNode_isList l1 l2 e (fuel + ((l1 ++ e :: l2).length + 1)) hl (by simp; omega) hl1
    rw [h2] at ht
    cases ht
    exact hl0.toWellFormed
  · rw [deleteNode_absent (fuel + (es.length + 1)) v hl (by omega) hv] at h2
    cases h2
    exact IsList.toWellFormed (l := es) (by apply hl.congr <;> rfl)

/-! ## States that differ only in what was printed -/

theorem forward_congr {s t : State} (hn : t.nodes = s.nodes) (hs : t.strs = s.strs) :
    ∀ (fuel : Nat) (p : Ptr), forward fuel t p = forward fuel s p
  | 0, _ => rfl
  | _ + 1, none => rfl
  | fuel + 1, some c => by
    simp only [forward, hn, hs, forward_congr hn hs fuel]

theorem backwardFrom_congr {s t : State} (hn : t.nodes = s.nodes) (hs : t.strs = s.strs) :
    ∀ (fuel : Nat) (p : Ptr), backwardFrom fuel t p = backwardFrom fuel s p
  | 0, _ => rfl
  | _ + 1, none => rfl
  | fuel + 1, some c => by
    simp only [backwardFrom, hn, hs, backwardFrom_congr hn hs fuel]

theorem seekTail_congr {s t : State} (hn : t.nodes = s.nodes) :
    ∀ (fuel : Nat) (p : Nat), seekTail fuel t p = seekTail fuel s p
  | 0, _ => rfl
  | fuel + 1, c => by
    simp only [seekTail, hn, seekTail_congr hn fuel]

theorem backward_congr {s t : State} (hn : t.nodes = s.nodes) (hs : t.strs = s.strs)
    (fuel : Nat) (p : Ptr) : backward fuel t p = backward fuel s p := by
  cases p with
  | none => rfl
  | some c => simp only [backward, seekTail_congr hn, backwardFrom_congr hn hs]

theorem Built.wellFormed {s : State} {head : Ptr} (h : Built s head) : WellFormed s head := by
  induction h with
  | empty s => exact (isList_nil s).toWellFormed
  | front p d v _ hp hd hr ih => exact wellFormed_insertAtBeginning ih hp hd hr
  | back fuel p d v _ hp hd hr ih => exact wellFormed_insertAtEnd ih hp hd hr
  | delete fuel v _ hr ih => exact wellFormed_deleteNode ih hr

theorem sampleOne_isList : IsList sampleOne (some 1) [⟨1, 11, "Alice"⟩] :=
  ⟨rfl, ⟨rfl, rfl, trivial⟩, by decide, by decide⟩

/-! ## Teardown -/

/-- On a well-formed segment that ends the list, `freeList` releases the node
block and the string block of every entry and touches nothing else. -/
theorem freeList_seg :
    ∀ (es : List Entry) (s : State) (prev : Ptr) (k : Nat), Seg s prev es none →
      (es.map Entry.addr).Nodup → (es.map Entry.str).Nodup →
      ∃ t, freeList (es.length + (k + 1)) s (headOr es none) = some t ∧
        (∀ e ∈ es, t.nodes e.addr = none ∧ t.strs e.str = none) ∧
        (∀ q, q ∉ es.map Entry.addr → t.nodes q = s.nodes q) ∧
        (∀ q, q ∉ es.map Entry.str → t.strs q = s.strs q) ∧
        t.out = s.out ∧ t.err = s.err
  | [], s, _, k, _, _, _ =>
    ⟨s, rfl, fun _ h => by simp at h, fun _ _ => rfl, fun _ _ => rfl, rfl, rfl⟩
  | e :: es, s, prev, k, ⟨h1, h2, h3⟩, hna, hns => by
    obtain ⟨hae, hna2⟩ := List.nodup_cons.1 hna
    obtain ⟨hse, hns2⟩ := List.nodup_cons.1 hns
    let s2 : State := { s with strs := set s.strs e.str none, nodes := set s.nodes e.addr none }
    have hseg2 : Seg s2 (some e.addr) es none := by
      refine Seg.frame _ _ _ (fun x hx => ?_) h3
      have hx1 : x.addr ≠ e.addr := fun h => hae (h ▸ List.mem_map_of_mem Entry.addr hx)
      have hx2 : x.str ≠ e.str := fun h => hse (h ▸ List.mem_map_of_mem Entry.str hx)
      simp [s2, set_ne _ _ hx1, set_ne _ _ hx2]
    obtain ⟨t, ht, hrel, hfn, hfs, hout, herr⟩ :=
      freeList_seg es s2 (some e.addr) k hseg2 hna2 hns2
    have hstep : freeList ((e :: es).length + (k + 1)) s (headOr (e :: es) none)
        = freeList (es.length + (k + 1)) s2 (headOr es none) := by
      have hl : (e :: es).length + (k + 1) = (es.length + (k + 1)) + 1 := by simp; omega
      rw [hl, headOr_cons]
      simp only [freeList, h1, Option.bind_eq_bind, Option.some_bind, freeStr_eq h2]
      rw [freeNode_eq (n := { data := some e.str, next := headOr es none, prev := prev })
        (by exact h1)]
      rfl
    refine ⟨t, by rw [hstep, ht], ?_, ?_, ?_, hout, herr⟩
    · intro x hx
      rcases List.mem_cons.1 hx with rfl | hx
      · exact ⟨by rw [hfn _ hae]; simp [s2], by rw [hfs _ hse]; simp [s2]⟩
      · exact hrel x hx
    · intro q hq
      have hq1 : q ≠ e.addr := fun h => hq (by simp [h])
      have hq2 : q ∉ es.map Entry.addr := fun h => hq (List.mem_cons_of_mem _ h)
      rw [hfn q hq2]
      simp [s2, set_ne _ _ hq1]
    · intro q hq
      have hq1 : q ≠ e.str := fun h => hq (by simp [h])
      have hq2 : q ∉ es.map Entry.str := fun h => hq (List.mem_cons_of_mem _ h)
      rw [hfs q hq2]
      simp [s2, set_ne _ _ hq1]

theorem freeList_isList {s : State} {head : Ptr} {es : List Entry} (fuel : Nat)
    (h : IsList s head es) (hf : es.length < fuel) :
    ∃ t, freeList fuel s head = some t ∧
      (∀ e ∈ es, t.nodes e.addr = none ∧ t.strs e.str = none) ∧
      (∀ q, q ∉ es.map Entry.addr → t.nodes q = s.nodes q) ∧
      (∀ q, q ∉ es.map Entry.str → t.strs q = s.strs q) ∧
      t.out = s.out ∧ t.err = s.err := by
  obtain ⟨hh, hseg, hna, hns⟩ := h
  obtain ⟨k, rfl⟩ : ∃ k, fuel = es.length + (k + 1) := ⟨fuel - es.length - 1, by omega⟩
  rw [hh]
  exact freeList_seg es s none k hseg hna hns

theorem onlyList_init : OnlyList State.init [] := ⟨fun _ _ => rfl, fun _ _ => rfl⟩

theorem own_insertAtEnd {s : State} {head : Ptr} {es : List Entry} (fuel p d : Nat)
    (v : String) (h : IsList s head es) (ho : OnlyList s es) (hf : es.length ≤ fuel)
    (hp : p ∉ es.map Entry.addr) (hd : d ∉ es.map Entry.str) :
    ∃ t, insertAtEnd fuel s ⟨some p, some d⟩ head v = some (t, headOr es (some p)) ∧
      IsList t (headOr es (some p)) (es ++ [Entry.mk p d v]) ∧
      OnlyList t (es ++ [Entry.mk p d v]) ∧ t.out = s.out := by
  obtain ⟨t, ht, hl, hout, _, hfn, hfs⟩ :=
    insertAtEnd_isList fuel p d v h hf (ho.1 p hp) (ho.2 d hd)
  refine ⟨t, ht, hl, ⟨fun q hq => ?_, fun q hq => ?_⟩, hout⟩
  · simp only [List.map_append, List.mem_append, List.map_cons, List.map_nil,
      List.mem_singleton, not_or] at hq
    rw [hfn q hq.2 hq.1]; exact ho.1 q hq.1
  · simp only [List.map_append, List.mem_append, List.map_cons, List.map_nil,
      List.mem_singleton, not_or] at hq
    rw [hfs q hq.2]; exact ho.2 q hq.1

theorem own_insertAtBeginning {s : State} {head : Ptr} {es : List Entry} (p d : Nat)
    (v : String) (h : IsList s head es) (ho : OnlyList s es)
    (hp : p ∉ es.map Entry.addr) (hd : d ∉ es.map Entry.str) :
    ∃ t, insertAtBeginning s ⟨some p, some d⟩ head v = some (t, some p) ∧
      IsList t (some p) (Entry.mk p d v :: es) ∧
      OnlyList t (Entry.mk p d v :: es) ∧ t.out = s.out := by
  obtain ⟨t, ht, hl, hout, _, hfn, hfs⟩ :=
    insertAtBeginning_isList p d v h (ho.1 p hp) (ho.2 d hd)
  refine ⟨t, ht, hl, ⟨fun q hq => ?_, fun q hq => ?_⟩, hout⟩
  · simp only [List.map_cons, List.mem_cons, not_or] at hq
    rw [hfn q hq.1 hq.2]; exact ho.1 q hq.2
  · simp only [List.map_cons, List.mem_cons, not_or] at hq
    rw [hfs q hq.1]; exact ho.2 q hq.2

theorem own_deleteNode {s : State} {head : Ptr} (l1 l2 : List Entry) (e : Entry)
    (fuel : Nat) (h : IsList s head (l1 ++ e :: l2)) (ho : OnlyList s (l1 ++ e :: l2))
    (hf : l1.length < fuel) (hv : e.val ∉ values l1) :
    ∃ t, deleteNode fuel s head e.val = some (t, headOr (l1 ++ l2) none) ∧
      IsList t (headOr (l1 ++ l2) none) (l1 ++ l2) ∧ OnlyList t (l1 ++ l2) ∧
      t.out = s.out := by
  obtain ⟨t, ht, hl, hout, _, hne, hse, hfn, hfs⟩ := deleteNode_isList l1 l2 e fuel h hf hv
  refine ⟨t, ht, hl, ⟨fun q hq => ?_, fun q hq => ?_⟩, hout⟩
  · by_cases hqe : q = e.addr
    · rw [hqe]; exact hne
    · have : q ∉ (l1 ++ e :: l2).map Entry.addr := by
        simp only [List.map_append, List.mem_append, List.map_cons, List.mem_cons,
          not_or] at hq ⊢
        exact ⟨hq.1, hqe, hq.2⟩
      rw [hfn q this]; exact ho.1 q this
  · by_cases hqe : q = e.str
    · rw [hqe]; exact hse
    · have : q ∉ (l1 ++ e :: l2).map Entry.str := by
        simp only [List.map_append, List.mem_append, List.map_cons, List.mem_cons,
          not_or] at hq ⊢
        exact ⟨hq.1, hqe, hq.2⟩
      rw [hfs q hqe]; exact ho.2 q this

theorem sameMemory_of_eq {s t : State} (hn : t.nodes = s.nodes) (hs : t.strs = s.strs) :
    SameMemory s t :=
  ⟨hn, hs, fun f head => forward_congr hn hs f head, fun f head => backward_congr hn hs f head⟩

theorem IsList.head_live {s : State} {head : Ptr} {es : List Entry} (h : IsList s head es)
    {a : Nat} (ha : head = some a) : s.nodes a ≠ none := by
  obtain ⟨hh, hseg, _, _⟩ := h
  cases es with
  | nil => rw [ha] at hh; cases hh
  | cons e l =>
    rw [ha] at hh
    cases hh
    rw [hseg.1]; simp

theorem err_append_ne (l : List String) (m : String) : l ++ [m] ≠ l := by
  intro h
  have := congrArg List.length h
  simp at this

/-! ## The blocks released -/

/-- The logged `freeList` is `freeList`. -/
theorem freeList_eq_log : ∀ (fuel : Nat) (s : State) (head : Ptr),
    freeList fuel s head = (freeListLog fuel s head).map Prod.fst
  | 0, _, _ => rfl
  | _ + 1, _, none => rfl
  | fuel + 1, s, some temp => by
    simp only [freeList, freeListLog]
    cases s.nodes temp with
    | none => rfl
    | some n =>
      simp only [Option.bind_eq_bind, Option.some_bind]
      cases s.freeStr n.data with
      | none => rfl
      | some s1 =>
        simp only [Option.some_bind]
        cases s1.freeNode temp with
        | none => rfl
        | some s2 =>
          simp only [Option.some_bind]
          rw [freeList_eq_log fuel s2 n.next, Option.map_map]
          rfl

/-- The logged `deleteNode` is `deleteNode`. -/
theorem deleteNode_eq_log (fuel : Nat) (s : State) (head : Ptr) (str : String) :
    deleteNode fuel s head str =
      (deleteNodeLog fuel s head str).map fun r => (r.1, r.2.1) := by
  unfold deleteNode deleteNodeLog
  cases findNode fuel s head str with
  | none => rfl
  | some r =>
    cases r with
    | none => rfl
    | some x =>
      simp only [Option.bind_eq_bind]
      cases s.nodes x with
      | none => rfl
      | some n =>
        simp only [Option.some_bind]
        cases unlinkPrevSide s n with
        | none => rfl
        | some s1 =>
          simp only [Option.some_bind]
          cases s1.nodes x with
          | none => rfl
          | some n1 =>
            simp only [Option.some_bind]
            cases unlinkNextSide s1 n1 with
            | none => rfl
            | some s2 =>
              simp only [Option.some_bind]
              cases (if some x = head then Option.map Node.next (s2.nodes x)
                else some head) with
              | none => rfl
              | some nh =>
                simp only [Option.some_bind]
                cases s2.nodes x with
                | none => rfl
                | some n3 =>
                  simp only [Option.some_bind]
                  cases s2.freeStr n3.data with
                  | none => rfl
                  | some s3 =>
                    simp only [Option.some_bind]
                    cases s3.freeNode x with
                    | none => rfl
                    | some s4 => rfl

theorem freeListLog_seg :
    ∀ (es : List Entry) (s : State) (prev : Ptr) (k : Nat), Seg s prev es none →
      (es.map Entry.addr).Nodup → (es.map Entry.str).Nodup →
      ∃ t, freeListLog (es.length + (k + 1)) s (headOr es none) = some (t, blocksOf es)
  | [], s, _, k, _, _, _ => ⟨s, rfl⟩
  | e :: es, s, prev, k, ⟨h1, h2, h3⟩, hna, hns => by
    obtain ⟨hae, hna2⟩ := List.nodup_cons.1 hna
    obtain ⟨hse, hns2⟩ := List.nodup_cons.1 hns
    let s2 : State := { s with strs := set s.strs e.str none, nodes := set s.nodes e.addr none }
    have hseg2 : Seg s2 (some e.addr) es none := by
      refine Seg.frame _ _ _ (fun x hx => ?_) h3
      have hx1 : x.addr ≠ e.addr := fun h => hae (h ▸ List.mem_map_of_mem Entry.addr hx)
      have hx2 : x.str ≠ e.str := fun h => hse (h ▸ List.mem_map_of_mem Entry.str hx)
      simp [s2, set_ne _ _ hx1, set_ne _ _ hx2]
    obtain ⟨t, ht⟩ := freeListLog_seg es s2 (some e.addr) k hseg2 hna2 hns2
    refine ⟨t, ?_⟩
    have hl : (e :: es).length + (k + 1) = (es.length + (k + 1)) + 1 := by simp; omega
    rw [hl, headOr_cons]
    simp only [freeListLog, h1, Option.bind_eq_bind, Option.some_bind, freeStr_eq h2]
    rw [freeNode_eq (n := { data := some e.str, next := headOr es none, prev := prev })
      (by exact h1)]
    simp only [Option.some_bind]
    have ht2 : freeListLog (es.length + (k + 1))
        { nodes := set s.nodes e.addr none, strs := set s.strs e.str none,
          out := s.out, err := s.err } (headOr es none) = some (t, blocksOf es) := ht
    rw [ht2]
    rfl

theorem mem_blocksOf {b : Block} :
    ∀ {es : List Entry}, b ∈ blocksOf es ↔
      ∃ e ∈ es, b = Block.node e.addr ∨ b = Block.str e.str
  | [] => by simp [blocksOf]
  | e :: es => by
    simp only [blocksOf, List.mem_cons, @mem_blocksOf b es]
    constructor
    · rintro (h | h | ⟨x, hx, h⟩)
      · exact ⟨e, Or.inl rfl, Or.inr h⟩
      · exact ⟨e, Or.inl rfl, Or.inl h⟩
      · exact ⟨x, Or.inr hx, h⟩
    · rintro ⟨x, hx | hx, h⟩
      · subst hx
        rcases h with h | h
        · exact Or.inr (Or.inl h)
        · exact Or.inl h
      · exact Or.inr (Or.inr ⟨x, hx, h⟩)

theorem blocksOf_nodup :
    ∀ {es : List Entry}, (es.map Entry.addr).Nodup → (es.map Entry.str).Nodup →
      (blocksOf es).Nodup
  | [], _, _ => List.nodup_nil
  | e :: es, hna, hns => by
    obtain ⟨hae, hna2⟩ := List.nodup_cons.1 hna
    obtain ⟨hse, hns2⟩ := List.nodup_cons.1 hns
    have ih := blocksOf_nodup hna2 hns2
    simp only [blocksOf, List.nodup_cons, List.mem_cons, not_or]
    refine ⟨⟨by simp, ?_⟩, ?_, ih⟩
    · intro hm
      obtain ⟨x, hx, h | h⟩ := mem_blocksOf.1 hm
      · cases h
      · have h2 : e.str = x.str := Block.str.inj h
        exact hse (h2 ▸ List.mem_map_of_mem Entry.str hx)
    · intro hm
      obtain ⟨x, hx, h | h⟩ := mem_blocksOf.1 hm
      · have h2 : e.addr = x.addr := Block.node.inj h
        exact hae (h2 ▸ List.mem_map_of_mem Entry.addr hx)
      · cases h

theorem blocksOf_append (l1 l2 : List Entry) :
    blocksOf (l1 ++ l2) = blocksOf l1 ++ blocksOf l2 := by
  induction l1 with
  | nil => rfl
  | cons e l ih => simp [blocksOf, ih]

/-- Every block of a well-formed list occurs exactly once among its blocks. -/
theorem blocksOf_count {s : State} {head : Ptr} {es : List Entry} (h : IsList s head es) :
    ∀ e ∈ es, (blocksOf es).count (Block.node e.addr) = 1 ∧
      (blocksOf es).count (Block.str e.str) = 1 := by
  intro e he
  have hnd := blocksOf_nodup h.2.2.1 h.2.2.2
  exact ⟨List.count_eq_one_of_mem hnd (mem_blocksOf.2 ⟨e, he, Or.inl rfl⟩),
    List.count_eq_one_of_mem hnd (mem_blocksOf.2 ⟨e, he, Or.inr rfl⟩)⟩

theorem freeListLog_isList {s : State} {head : Ptr} {es : List Entry} (fuel : Nat)
    (h : IsList s head es) (hf : es.length < fuel) :
    ∃ t, freeListLog fuel s head = some (t, blocksOf es) ∧ freeList fuel s head = some t := by
  obtain ⟨hh, hseg, hna, hns⟩ := h
  obtain ⟨k, rfl⟩ : ∃ k, fuel = es.length + (k + 1) := ⟨fuel - es.length - 1, by omega⟩
  obtain ⟨t, ht⟩ := freeListLog_seg es s none k hseg hna hns
  rw [hh]
  exact ⟨t, ht, by rw [freeList_eq_log, ht]; rfl⟩

theorem storeNext_data {s t : State} {q : Nat} {v : Ptr} (h : s.storeNext q v = some t)
    (x : Nat) : (t.nodes x).map Node.data = (s.nodes x).map Node.data := by
  unfold State.storeNext at h
  cases hq : s.nodes q with
  | none => simp [hq] at h
  | some n =>
    simp only [hq, Option.some.injEq] at h
    subst h
    by_cases hx : x = q
    · subst hx; simp [hq]
    · simp [set_ne _ _ hx]

theorem storePrev_data {s t : State} {q : Nat} {v : Ptr} (h : s.storePrev q v = some t)
    (x : Nat) : (t.nodes x).map Node.data = (s.nodes x).map Node.data := by
  unfold State.storePrev at h
  cases hq : s.nodes q with
  | none => simp [hq] at h
  | some n =>
    simp only [hq, Option.some.injEq] at h
    subst h
    by_cases hx : x = q
    · subst hx; simp [hq]
    · simp [set_ne _ _ hx]

theorem unlinkPrevSide_data {s t : State} {n : Node} (h : unlinkPrevSide s n = some t)
    (x : Nat) : (t.nodes x).map Node.data = (s.nodes x).map Node.data := by
  unfold unlinkPrevSide at h
  cases hp : n.prev with
  | none => simp only [hp, Option.some.injEq] at h; rw [h]
  | some q => simp only [hp] at h; exact storeNext_data h x

theorem unlinkNextSide_data {s t : State} {n : Node} (h : unlinkNextSide s n = some t)
    (x : Nat) : (t.nodes x).map Node.data = (s.nodes x).map Node.data := by
  unfold unlinkNextSide at h
  cases hp : n.next with
  | none => simp only [hp, Option.some.injEq] at h; rw [h]
  | some q => simp only [hp] at h; exact storePrev_data h x

/-- The calls of `free` made by `deleteNode`: the string block of the node
that `findNode` returned, then that node block; none when nothing was found. -/
theorem deleteNodeLog_log {s t : State} {head newHead : Ptr} {fuel : Nat} {v : String}
    {log : List Block} (h : deleteNodeLog fuel s head v = some (t, newHead, log)) :
    (findNode fuel s head v = some none ∧ log = []) ∨
    ∃ x n, findNode fuel s head v = some (some x) ∧ s.nodes x = some n ∧
      log = Block.ofData n.data ++ [Block.node x] := by
  unfold deleteNodeLog at h
  cases hf : findNode fuel s head v with
  | none => simp [hf] at h
  | some r =>
    cases r with
    | none =>
      simp only [hf, Option.some.injEq, Prod.mk.injEq] at h
      exact Or.inl ⟨rfl, h.2.2.symm⟩
    | some x =>
      right
      simp only [hf, Option.bind_eq_bind] at h
      cases hn : s.nodes x with
      | none => simp [hn] at h
      | some n =>
        simp only [hn, Option.some_bind] at h
        cases h1 : unlinkPrevSide s n with
        | none => simp [h1] at h
        | some s1 =>
          simp only [h1, Option.some_bind] at h
          cases hn1 : s1.nodes x with
          | none => simp [hn1] at h
          | some n1 =>
            simp only [hn1, Option.some_bind] at h
            cases h2 : unlinkNextSide s1 n1 with
            | none => simp [h2] at h
            | some s2 =>
              simp only [h2, Option.some_bind] at h
              cases hn3 : s2.nodes x with
              | none => simp [hn3] at h
              | some n3 =>
                have hd : n3.data = n.data := by
                  have e1 := unlinkPrevSide_data h1 x
                  have e2 := unlinkNextSide_data h2 x
                  rw [hn3, hn1] at e2
                  rw [hn1, hn] at e1
                  simp only [Option.map_some', Option.some.injEq] at e1 e2
                  rw [e2, e1]
                simp only [hn3, Option.map_some'] at h
                cases hh : (if some x = head then some n3.next else some head) with
                | none => simp [hh] at h
                | some nh =>
                  simp only [hh, Option.some_bind] at h
                  cases h3 : s2.freeStr n3.data with
                  | none => simp [h3] at h
                  | some s3 =>
                    simp only [h3, Option.some_bind] at h
                    cases h4 : s3.freeNode x with
                    | none => simp [h4] at h
                    | some s4 =>
                      simp only [h4, Option.some_bind, Option.some.injEq, Prod.mk.injEq] at h
                      exact ⟨x, n, rfl, hn, by rw [← h.2.2, hd]⟩

theorem deleteNodeLog_of_deleteNode {s t : State} {head newHead : Ptr} {fuel : Nat}
    {v : String} (h : deleteNode fuel s head v = some (t, newHead)) :
    ∃ log, deleteNodeLog fuel s head v = some (t, newHead, log) := by
  rw [deleteNode_eq_log] at h
  cases hlog : deleteNodeLog fuel s head v with
  | none => rw [hlog] at h; cases h
  | some r =>
    obtain ⟨t2, nh2, log⟩ := r
    rw [hlog] at h
    simp only [Option.map_some', Option.some.injEq, Prod.mk.injEq] at h
    obtain ⟨rfl, rfl⟩ := h
    exact ⟨log, rfl⟩

/-- In a segment every link of a node is an end of the segment or the address
of a node of the segment, and its string is its own. -/
theorem Seg.links {s : State} :
    ∀ {es : List Entry} {prev nxt : Ptr}, Seg s prev es nxt →
      ∀ x ∈ es, ∀ n, s.nodes x.addr = some n →
        n.data = some x.str ∧
        (n.next = nxt ∨ ∃ y ∈ es, n.next = some y.addr) ∧
        (n.prev = prev ∨ ∃ y ∈ es, n.prev = some y.addr)
  | [], _, _, _, x, hx, _, _ => by simp at hx
  | e :: es, prev, nxt, ⟨h1, h2, h3⟩, x, hx, n, hn => by
    rcases List.mem_cons.1 hx with rfl | hx
    · rw [h1] at hn
      cases hn
      refine ⟨rfl, ?_, Or.inl rfl⟩
      cases es with
      | nil => exact Or.inl rfl
      | cons y l => exact Or.inr ⟨y, by simp, rfl⟩
    · obtain ⟨hd, hnx, hpv⟩ := Seg.links h3 x hx n hn
      refine ⟨hd, ?_, ?_⟩
      · rcases hnx with h | ⟨y, hy, h⟩
        · exact Or.inl h
        · exact Or.inr ⟨y, List.mem_cons_of_mem _ hy, h⟩
      · rcases hpv with h | ⟨y, hy, h⟩
        · exact Or.inr ⟨e, by simp, h⟩
        · exact Or.inr ⟨y, List.mem_cons_of_mem _ hy, h⟩

/-- Two states that hold the same segment agree on its blocks. -/
theorem Seg.agree {s t : State} :
    ∀ {es : List Entry} {prev nxt : Ptr}, Seg s prev es nxt → Seg t prev es nxt →
      ∀ x ∈ es, t.nodes x.addr = s.nodes x.addr ∧ t.strs x.str = s.strs x.str
  | [], _, _, _, _, x, hx => by simp at hx
  | e :: es, _, _, ⟨h1, h2, h3⟩, ⟨g1, g2, g3⟩, x, hx => by
    rcases List.mem_cons.1 hx with rfl | hx
    · exact ⟨by rw [g1, h1], by rw [g2, h2]⟩
    · exact Seg.agree h3 g3 x hx

/-- Deleting the value just inserted at the beginning gives back the memory of
the list as it was. -/
theorem delete_insertAtBeginning_isList {s : State} {head : Ptr} {es : List Entry}
    (p d fuel : Nat) (v : String) (h : IsList s head es)
    (hp : s.nodes p = none) (hd : s.strs d = none) (hf : 0 < fuel) :
    ∃ t1 t2, insertAtBeginning s ⟨some p, some d⟩ head v = some (t1, some p) ∧
      deleteNode fuel t1 (some p) v = some (t2, head) ∧
      t2.nodes = s.nodes ∧ t2.strs = s.strs ∧ t2.out = s.out ∧ t2.err = s.err ∧
      IsList t2 head es := by
  obtain ⟨t1, h1, hl1, ho1, he1, hfn1, hfs1⟩ := insertAtBeginning_isList p d v h hp hd
  obtain ⟨t2, h2, hl2, ho2, he2, hn2, hs2, hfn2, hfs2⟩ :=
    deleteNode_isList [] es ⟨p, d, v⟩ fuel hl1 hf (by simp)
  have hhead : headOr ([] ++ es) none = head := h.1.symm
  rw [hhead] at h2 hl2
  have hl2b : IsList t2 head es := hl2
  refine ⟨t1, t2, h1, h2, ?_, ?_, by rw [ho2, ho1], by rw [he2, he1], hl2b⟩
  · funext q
    by_cases hq : q = p
    · rw [hq, hp]; exact hn2
    · by_cases hm : q ∈ es.map Entry.addr
      · obtain ⟨x, hx, rfl⟩ := List.mem_map.1 hm
        exact (Seg.agree h.2.1 hl2b.2.1 x hx).1
      · rw [hfn2 q (by simpa [hq] using hm), hfn1 q hq hm]
  · funext q
    by_cases hq : q = d
    · rw [hq, hd]; exact hs2
    · rw [hfs2 q hq, hfs1 q hq]

/-- A block that is not live before an insertion at the end and is not the
one the insertion received is not live afterwards. -/
theorem fresh_after_insertAtEnd {s t : State} {head : Ptr} {es : List Entry}
    {p d q r : Nat} (h : IsList s head es)
    (hfn : ∀ x, x ≠ p → x ∉ es.map Entry.addr → t.nodes x = s.nodes x)
    (hfs : ∀ x, x ≠ d → t.strs x = s.strs x)
    (hq : s.nodes q = none) (hr : s.strs r = none) (hqp : q ≠ p) (hrd : r ≠ d) :
    t.nodes q = none ∧ t.strs r = none :=
  ⟨by rw [hfn q hqp (h.2.1.addr_ne hq)]; exact hq, by rw [hfs r hrd]; exact hr⟩

/-! ## Searching before and after a deletion -/

theorem firstMatch_absent {w : String} :
    ∀ {es : List Entry}, w ∉ values es → firstMatch es w = none
  | [], _ => rfl
  | e :: es, h => by
    have h1 : ¬ e.val = w := fun h0 => h (by simp [h0])
    have h2 : w ∉ values es := fun h0 => h (by simp [h0])
    simp [firstMatch, h1, firstMatch_absent h2]

theorem firstMatch_split {e : Entry} (l2 : List Entry) :
    ∀ {l1 : List Entry}, e.val ∉ values l1 → firstMatch (l1 ++ e :: l2) e.val = some e.addr
  | [], _ => by simp [firstMatch]
  | x :: l1, h => by
    have h1 : ¬ x.val = e.val := fun h0 => h (by simp [h0])
    have h2 : e.val ∉ values l1 := fun h0 => h (by simp [h0])
    simp [firstMatch, h1, firstMatch_split l2 h2]

theorem firstMatch_skip {e : Entry} {w : String} (l2 : List Entry) (he : e.val ≠ w) :
    ∀ l1 : List Entry, firstMatch (l1 ++ e :: l2) w = firstMatch (l1 ++ l2) w
  | [] => by simp [firstMatch, he]
  | x :: l1 => by
    by_cases hx : x.val = w
    · simp [firstMatch, hx]
    · simp [firstMatch, hx, firstMatch_skip l2 he l1]

/-- On a well-formed list `findNode` returns the first node holding the value. -/
theorem findNode_isList_eq {s : State} {head : Ptr} {es : List Entry} (fuel : Nat)
    (w : String) (h : IsList s head es) (hf : es.length < fuel) :
    findNode fuel s head w = some (firstMatch es w) := by
  by_cases hw : w ∈ values es
  · obtain ⟨l1, e, l2, rfl, rfl, hl1⟩ := split_first w es hw
    rw [findNode_isList_present l1 l2 e fuel h (by simp at hf; omega) hl1,
      firstMatch_split l2 hl1]
  · rw [findNode_isList_absent fuel w h hf hw, firstMatch_absent hw]

/-! ## The claims -/

/-- C1: on a well-formed list, when both allocations of `createNode` succeed
(on blocks that were not live), `insertAtBeginning` returns the newly created
node as head; the forward traversal of the list before the call finishes, and
the forward traversal from the new head is the new value followed by it. -/
theorem insertAtBeginning_forward (s : State) (head : Ptr) (p d : Nat) (v : String)
    (wf : WellFormed s head) (hp : s.nodes p = none) (hd : s.strs d = none) :
    ∃ t, insertAtBeginning s ⟨some p, some d⟩ head v = some (t, some p) ∧
      t.nodes p = some { data := some d, next := head, prev := none } ∧
      t.strs d = some v ∧
      (∃ fuel vs, forward fuel s head = some vs) ∧
      ∀ fuel vs, forward fuel s head = some vs →
        forward (fuel + 1) t (some p) = some (v :: vs) := by
  obtain ⟨es, h⟩ := wellFormed_iff.1 wf
  obtain ⟨t, ht, hl, _, _, _, _⟩ := insertAtBeginning_isList p d v h hp hd
  refine ⟨t, ht, ?_, hl.2.1.2.1, ⟨_, _, forward_isList (es.length + 1) h (by omega)⟩, ?_⟩
  · rw [hl.2.1.1, h.1]
  · intro fuel vs hfw
    obtain ⟨rfl, hlen⟩ := forward_inv h hfw
    rw [forward_isList (fuel + 1) hl (by simp; omega)]
    rfl

theorem insertAtBeginning_forward_witness :
    ∃ t, insertAtBeginning sampleState ⟨some 4, some 14⟩ (some 1) "Zoe" = some (t, some 4) ∧
      t.nodes 4 = some { data := some 14, next := some 1, prev := none } ∧
      t.strs 14 = some "Zoe" ∧
      forward 5 t (some 4) = some ["Zoe", "Alice", "Bob", "Alice"] := by
  obtain ⟨t, ht, hn, hs, _, hf⟩ :=
    insertAtBeginning_forward sampleState (some 1) 4 14 "Zoe" sample_wellFormed rfl rfl
  exact ⟨t, ht, hn, hs, hf 4 ["Alice", "Bob", "Alice"] rfl⟩

/-- C2: on a well-formed list, when both allocations of `createNode` succeed
(on blocks that were not live), the forward traversal before the call
finishes, and `insertAtEnd`, run with fuel that lets it finish, yields a list
whose forward traversal is that traversal followed by the new value; the head
is kept, and on an empty list the new node becomes the head and is the only
node. -/
theorem insertAtEnd_forward (s : State) (head : Ptr) (p d : Nat) (v : String)
    (wf : WellFormed s head) (hp : s.nodes p = none) (hd : s.strs d = none) :
    (∃ fuel vs, forward fuel s head = some vs) ∧
    ∀ fuel vs, forward fuel s head = some vs →
      ∃ t, insertAtEnd fuel s ⟨some p, some d⟩ head v = some (t, some (head.getD p)) ∧
        forward (fuel + 1) t (some (head.getD p)) = some (vs ++ [v]) ∧
        (head = none → forward (fuel + 1) t (some p) = some [v] ∧
          t.nodes p = some { data := some d, next := none, prev := none }) := by
  obtain ⟨es, h⟩ := wellFormed_iff.1 wf
  refine ⟨⟨_, _, forward_isList (es.length + 1) h (by omega)⟩, ?_⟩
  intro fuel vs hfw
  obtain ⟨rfl, hlen⟩ := forward_inv h hfw
  obtain ⟨t, ht, hl, _, _, _, _⟩ := insertAtEnd_isList fuel p d v h (by omega) hp hd
  rw [headOr_getD p h.1] at ht hl
  have hfwd : forward (fuel + 1) t (some (head.getD p)) = some (values es ++ [v]) := by
    rw [forward_isList (fuel + 1) hl (by simp; omega)]
    simp
  refine ⟨t, ht, hfwd, ?_⟩
  intro hnone
  subst hnone
  cases es with
  | nil => exact ⟨by simpa using hfwd, hl.2.1.1⟩
  | cons e es => exact absurd h.1 (by simp)

theorem insertAtEnd_forward_witness :
    ∃ t, insertAtEnd 4 sampleState ⟨some 4, some 14⟩ (some 1) "Zoe" = some (t, some 1) ∧
      forward 5 t (some 1) = some ["Alice", "Bob", "Alice", "Zoe"] := by
  obtain ⟨t, ht, hf, _⟩ :=
    (insertAtEnd_forward sampleState (some 1) 4 14 "Zoe" sample_wellFormed rfl rfl).2
      4 ["Alice", "Bob", "Alice"] rfl
  exact ⟨t, ht, hf⟩

/-- C3: on a well-formed list the forward traversal finishes, and when it
contains the value, `deleteNode` removes exactly the first node holding it:
the forward traversal afterwards is the one before with the first occurrence
of the value erased, so later duplicates and all other values keep their
order. -/
theorem deleteNode_forward (s : State) (head : Ptr) (v : String)
    (wf : WellFormed s head) :
    (∃ fuel vs, forward fuel s head = some vs) ∧
    ∀ fuel vs, forward fuel s head = some vs → v ∈ vs →
      ∃ t newHead, deleteNode fuel s head v = some (t, newHead) ∧
        forward fuel t newHead = some (vs.erase v) := by
  obtain ⟨es, h⟩ := wellFormed_iff.1 wf
  refine ⟨⟨_, _, forward_isList (es.length + 1) h (by omega)⟩, ?_⟩
  intro fuel vs hfw hv
  obtain ⟨rfl, hlen⟩ := forward_inv h hfw
  obtain ⟨l1, e, l2, rfl, rfl, hl1⟩ := split_first v es hv
  obtain ⟨t, ht, hl, _⟩ := deleteNode_isList l1 l2 e fuel h (by simp at hlen; omega) hl1
  refine ⟨t, _, ht, ?_⟩
  rw [forward_isList fuel hl (by simp at hlen ⊢; omega), values_erase hl1]

theorem deleteNode_forward_witness :
    ∃ t newHead, deleteNode 4 sampleState (some 1) "Alice" = some (t, newHead) ∧
      forward 4 t newHead = some ["Bob", "Alice"] :=
  (deleteNode_forward sampleState (some 1) "Alice" sample_wellFormed).2
    4 ["Alice", "Bob", "Alice"] rfl (by decide)

/-- C4: on a well-formed list whose nodes are `es`, `findNode` returns `NULL`
exactly when no node holds the value, and otherwise returns the first node in
traversal order that holds it; a node matches only when `strcmp` is zero,
which is exact equality of the two texts. -/
theorem findNode_first_match (s : State) (head : Ptr) (es : List Entry) (v : String)
    (fuel : Nat) (hinv : ListInvariant s head es) (hf : es.length < fuel) :
    forward fuel s head = some (values es) ∧
    (findNode fuel s head v = some none ↔ v ∉ values es) ∧
    (∀ l1 e l2, es = l1 ++ e :: l2 → e.val = v → v ∉ values l1 →
      findNode fuel s head v = some (some e.addr)) ∧
    (∀ a b : String, strcmp a b = 0 ↔ a = b) := by
  have h := isList_iff_invariant.2 hinv
  have hpres : ∀ l1 e l2, es = l1 ++ e :: l2 → e.val = v → v ∉ values l1 →
      findNode fuel s head v = some (some e.addr) := by
    intro l1 e l2 hes hev hl1
    subst hes hev
    exact findNode_isList_present l1 l2 e fuel h (by simp at hf; omega) hl1
  refine ⟨forward_isList fuel h hf, ⟨?_, findNode_isList_absent fuel v h hf⟩, hpres,
    strcmp_eq_zero⟩
  intro hnone hv
  obtain ⟨l1, e, l2, hes, hev, hl1⟩ := split_first v es hv
  rw [hpres l1 e l2 hes hev hl1] at hnone
  cases hnone

theorem findNode_first_match_witness :
    forward 4 sampleState (some 1) = some (values sampleEntries) ∧
    (findNode 4 sampleState (some 1) "alice" = some none ↔ "alice" ∉ values sampleEntries) ∧
    (∀ l1 e l2, sampleEntries = l1 ++ e :: l2 → e.val = "alice" → "alice" ∉ values l1 →
      findNode 4 sampleState (some 1) "alice" = some (some e.addr)) ∧
    (∀ a b : String, strcmp a b = 0 ↔ a = b) :=
  findNode_first_match sampleState (some 1) sampleEntries "alice" 4 sample_invariant
    (by decide)

/-- C5: for every list built from the empty list by successful calls of
`insertAtBeginning`, `insertAtEnd` and `deleteNode`, both traversals finish,
and the forward traversal is the reverse of the backward traversal. -/
theorem forward_eq_reverse_backward (s : State) (head : Ptr) (hb : Built s head) :
    (∃ fuel vs, forward fuel s head = some vs) ∧
    ∀ fuel vs, forward fuel s head = some vs →
      ∃ bs, backward fuel s head = some bs ∧ vs = bs.reverse := by
  obtain ⟨es, hl⟩ := wellFormed_iff.1 hb.wellFormed
  refine ⟨⟨es.length + 1, values es, forward_isList _ hl (by omega)⟩, ?_⟩
  intro fuel vs hfw
  obtain ⟨rfl, hlen⟩ := forward_inv hl hfw
  exact ⟨_, backward_isList fuel hl hlen, by simp⟩

theorem forward_eq_reverse_backward_witness :
    ∃ s head, Built s head ∧
      forward 4 s head = some ["Zoe", "Alice", "Charlie"] ∧
      backward 4 s head = some ["Charlie", "Alice", "Zoe"] ∧
      ["Zoe", "Alice", "Charlie"] = ["Charlie", "Alice", "Zoe"].reverse := by
  -- insertAtEnd Alice, Bob, Charlie; insertAtBeginning Zoe; deleteNode Bob
  obtain ⟨t1, r1, i1, o1, _⟩ := own_insertAtEnd 4 1 11 "Alice"
    (isList_nil State.init) onlyList_init (by decide) (by decide) (by decide)
  obtain ⟨t2, r2, i2, o2, _⟩ := own_insertAtEnd 4 2 12 "Bob" i1 o1
    (by decide) (by decide) (by decide)
  obtain ⟨t3, r3, i3, o3, _⟩ := own_insertAtEnd 4 3 13 "Charlie" i2 o2
    (by decide) (by decide) (by decide)
  obtain ⟨t4, r4, i4, o4, _⟩ := own_insertAtBeginning 4 14 "Zoe" i3 o3
    (by decide) (by decide)
  obtain ⟨t5, r5, i5, _, _⟩ := own_deleteNode [⟨4, 14, "Zoe"⟩, ⟨1, 11, "Alice"⟩]
    [⟨3, 13, "Charlie"⟩] ⟨2, 12, "Bob"⟩ 4 i4 o4 (by decide) (by decide)
  have b1 : Built t1 (some 1) := Built.back 4 1 11 "Alice" (Built.empty State.init) rfl rfl r1
  have b2 : Built t2 (some 1) :=
    Built.back 4 2 12 "Bob" b1 (o1.1 2 (by decide)) (o1.2 12 (by decide)) r2
  have b3 : Built t3 (some 1) :=
    Built.back 4 3 13 "Charlie" b2 (o2.1 3 (by decide)) (o2.2 13 (by decide)) r3
  have b4 : Built t4 (some 4) :=
    Built.front 4 14 "Zoe" b3 (o3.1 4 (by decide)) (o3.2 14 (by decide)) r4
  have b5 : Built t5 (some 4) := Built.delete 4 "Bob" b4 r5
  have hf : forward 4 t5 (some 4) = some ["Zoe", "Alice", "Charlie"] :=
    forward_isList 4 i5 (by decide)
  obtain ⟨bs, hbs, heq⟩ := (forward_eq_reverse_backward t5 (some 4) b5).2 4 _ hf
  have hb : bs = ["Charlie", "Alice", "Zoe"] := by
    have := congrArg List.reverse heq
    simpa using this.symm
  rw [hb] at hbs heq
  exact ⟨t5, some 4, b5, hf, hbs, heq⟩

/-- C6: the empty list is well formed, and on a well-formed list each of
`insertAtBeginning`, `insertAtEnd` and `deleteNode` (whichever node it removes:
head, tail, interior, or none) returns, given fuel that lets the forward
traversal finish, a state and head that are well formed again. -/
theorem wellFormed_preserved (s : State) (head : Ptr) (p d : Nat) (v : String)
    (wf : WellFormed s head) (hp : s.nodes p = none) (hd : s.strs d = none) :
    (∀ s0, WellFormed s0 none) ∧
    (∃ fuel vs, forward fuel s head = some vs) ∧
    (∃ t newHead, insertAtBeginning s ⟨some p, some d⟩ head v = some (t, newHead) ∧
      WellFormed t newHead) ∧
    ∀ fuel vs, forward fuel s head = some vs →
      (∃ t newHead, insertAtEnd fuel s ⟨some p, some d⟩ head v = some (t, newHead) ∧
        WellFormed t newHead) ∧
      (∃ t newHead, deleteNode fuel s head v = some (t, newHead) ∧
        WellFormed t newHead) := by
  obtain ⟨es, hl⟩ := wellFormed_iff.1 wf
  refine ⟨fun s0 => (isList_nil s0).toWellFormed,
    ⟨_, _, forward_isList (es.length + 1) hl (by omega)⟩, ?_, ?_⟩
  · obtain ⟨t, ht, hl0, _⟩ := insertAtBeginning_isList p d v hl hp hd
    exact ⟨t, _, ht, hl0.toWellFormed⟩
  · intro fuel vs hfw
    obtain ⟨rfl, hlen⟩ := forward_inv hl hfw
    constructor
    · obtain ⟨t, ht, hl0, _⟩ := insertAtEnd_isList fuel p d v hl (by omega) hp hd
      exact ⟨t, _, ht, hl0.toWellFormed⟩
    · by_cases hv : v ∈ values es
      · obtain ⟨l1, e, l2, rfl, rfl, hl1⟩ := split_first v es hv
        obtain ⟨t, ht, hl0, _⟩ :=
          deleteNode_isList l1 l2 e fuel hl (by simp at hlen; omega) hl1
        exact ⟨t, _, ht, hl0.toWellFormed⟩
      · exact ⟨_, _, deleteNode_absent fuel v hl hlen hv,
          IsList.toWellFormed (l := es) (by apply hl.congr <;> rfl)⟩

theorem wellFormed_preserved_witness :
    (∃ t newHead, insertAtBeginning sampleState ⟨some 4, some 14⟩ (some 1) "Bob"
      = some (t, newHead) ∧ WellFormed t newHead) ∧
    (∃ t newHead, insertAtEnd 4 sampleState ⟨some 4, some 14⟩ (some 1) "Bob"
      = some (t, newHead) ∧ WellFormed t newHead) ∧
    (∃ t newHead, deleteNode 4 sampleState (some 1) "Bob" = some (t, newHead) ∧
      WellFormed t newHead) := by
  obtain ⟨_, _, h1, h2⟩ :=
    wellFormed_preserved sampleState (some 1) 4 14 "Bob" sample_wellFormed rfl rfl
  exact ⟨h1, h2 4 ["Alice", "Bob", "Alice"] rfl⟩

/-- C7: on a well-formed list that does not contain the value (the empty list
included), `deleteNode` returns the same head, changes no node block and no
string block, so both traversals are as before, and prints the notice that the
value was not found. -/
theorem deleteNode_absent_unchanged (s : State) (head : Ptr) (v : String)
    (wf : WellFormed s head) :
    (∃ fuel vs, forward fuel s head = some vs) ∧
    ∀ fuel vs, forward fuel s head = some vs → v ∉ vs →
      ∃ t, deleteNode fuel s head v = some (t, head) ∧
        t.nodes = s.nodes ∧ t.strs = s.strs ∧
        t.out = s.out ++ [notFoundNotice v] ∧ t.err = s.err ∧
        (∀ f, forward f t head = forward f s head) ∧
        (∀ f, backward f t head = backward f s head) := by
  obtain ⟨es, hl⟩ := wellFormed_iff.1 wf
  refine ⟨⟨_, _, forward_isList (es.length + 1) hl (by omega)⟩, ?_⟩
  intro fuel vs hfw hv
  obtain ⟨rfl, hlen⟩ := forward_inv hl hfw
  exact ⟨_, deleteNode_absent fuel v hl hlen hv, rfl, rfl, rfl, rfl,
    fun f => by apply forward_congr <;> rfl, fun f => by apply backward_congr <;> rfl⟩

theorem deleteNode_absent_unchanged_witness :
    ∃ t, deleteNode 4 sampleState (some 1) "NonExistent" = some (t, some 1) ∧
      t.nodes = sampleState.nodes ∧ t.strs = sampleState.strs ∧
      t.out = sampleState.out ++ [notFoundNotice "NonExistent"] ∧ t.err = sampleState.err ∧
      (∀ f, forward f t (some 1) = forward f sampleState (some 1)) ∧
      (∀ f, backward f t (some 1) = backward f sampleState (some 1)) :=
  (deleteNode_absent_unchanged sampleState (some 1) "NonExistent" sample_wellFormed).2
    4 ["Alice", "Bob", "Alice"] rfl (by decide)

/-- C8: inserting a value at the beginning of the empty list and then deleting
it gives the empty list again (head `NULL`); more generally, on a well-formed
list whose only node holds `w`, deleting `w` returns the head `NULL`. -/
theorem deleteNode_only_node (s : State) (head : Ptr) (w : String) (fuel : Nat)
    (s0 : State) (p d : Nat) (v : String)
    (wf : WellFormed s head) (hfw : forward fuel s head = some [w])
    (hp : s0.nodes p = none) (hd : s0.strs d = none) :
    (∃ t, deleteNode fuel s head w = some (t, none) ∧ WellFormed t none) ∧
    (∃ t1 t2, insertAtBeginning s0 ⟨some p, some d⟩ none v = some (t1, some p) ∧
      deleteNode fuel t1 (some p) v = some (t2, none)) := by
  obtain ⟨es, hl⟩ := wellFormed_iff.1 wf
  obtain ⟨hvs, hlen⟩ := forward_inv hl hfw
  have hfuel : 0 < fuel := by omega
  constructor
  · match es, hl, hvs with
    | [e], hl, hvs =>
      have hw : e.val = w := by simpa using hvs.symm
      subst hw
      obtain ⟨t, ht, hl0, _⟩ := deleteNode_isList [] [] e fuel hl hfuel (by simp)
      exact ⟨t, ht, hl0.toWellFormed⟩
  · obtain ⟨t1, h1, hl1, _⟩ := insertAtBeginning_isList p d v (isList_nil s0) hp hd
    obtain ⟨t2, h2, _⟩ := deleteNode_isList [] [] ⟨p, d, v⟩ fuel hl1 hfuel (by simp)
    exact ⟨t1, t2, h1, h2⟩

theorem deleteNode_only_node_witness :
    (∃ t, deleteNode 2 sampleOne (some 1) "Alice" = some (t, none) ∧ WellFormed t none) ∧
    (∃ t1 t2, insertAtBeginning State.init ⟨some 1, some 11⟩ none "Zoe" = some (t1, some 1) ∧
      deleteNode 2 t1 (some 1) "Zoe" = some (t2, none)) :=
  deleteNode_only_node sampleOne (some 1) "Alice" 2 State.init 1 11 "Zoe"
    sampleOne_isList.toWellFormed rfl rfl rfl

/-- C9: the driver scenario.  Whatever distinct blocks the four allocations
return, `main` runs to completion and shows: after the three `insertAtEnd`
calls forward `[Alice, Bob, Charlie]` and backward `[Charlie, Bob, Alice]`;
after `insertAtBeginning` of `Zoe` forward `[Zoe, Alice, Bob, Charlie]`; after
deleting `Bob` `[Zoe, Alice, Charlie]`; after deleting the head `Zoe`
`[Alice, Charlie]`; after deleting the tail `Charlie` `[Alice]`; after deleting
`Alice` the empty list; deleting `NonExistent` from the empty list prints the
not-found notice and leaves the list empty. -/
theorem main_scenario (fuel p1 p2 p3 p4 d1 d2 d3 d4 : Nat)
    (hf : 4 < fuel) (hp : [p1, p2, p3, p4].Nodup) (hd : [d1, d2, d3, d4].Nodup) :
    ∃ tr, main fuel ⟨some p1, some d1⟩ ⟨some p2, some d2⟩ ⟨some p3, some d3⟩
        ⟨some p4, some d4⟩ = some tr ∧
      tr.test1Forward = ["Alice", "Bob", "Charlie"] ∧
      tr.test1Backward = ["Charlie", "Bob", "Alice"] ∧
      tr.test2Forward = ["Zoe", "Alice", "Bob", "Charlie"] ∧
      tr.test2Backward = ["Charlie", "Bob", "Alice", "Zoe"] ∧
      tr.test3Bob = some p2 ∧ tr.test3David = none ∧
      tr.test4Forward = ["Zoe", "Alice", "Charlie"] ∧
      tr.test4Backward = ["Charlie", "Alice", "Zoe"] ∧
      tr.test5Forward = ["Alice", "Charlie"] ∧
      tr.test5Backward = ["Charlie", "Alice"] ∧
      tr.test6Forward = ["Alice"] ∧
      tr.test6Backward = ["Alice"] ∧
      tr.test7Forward = [] ∧
      tr.test8List = none ∧ tr.test8Out = [notFoundNotice "NonExistent"] ∧
      tr.finalList = none := by
  simp only [List.nodup_cons, List.mem_cons, List.mem_singleton, not_or, List.not_mem_nil,
    not_false_eq_true, List.nodup_nil, and_true] at hp hd
  obtain ⟨⟨p12, p13, p14⟩, ⟨p23, p24⟩, p34⟩ := hp
  obtain ⟨⟨d12, d13, d14⟩, ⟨d23, d24⟩, d34⟩ := hd
  -- test 1
  obtain ⟨t1, r1, i1, o1, u1⟩ := own_insertAtEnd fuel p1 d1 "Alice"
    (isList_nil State.init) onlyList_init (by simp) (by simp) (by simp)
  obtain ⟨t2, r2, i2, o2, u2⟩ := own_insertAtEnd fuel p2 d2 "Bob" i1 o1
    (by simp; omega) (by simp [Ne.symm p12]) (by simp [Ne.symm d12])
  obtain ⟨t3, r3, i3, o3, u3⟩ := own_insertAtEnd fuel p3 d3 "Charlie" i2 o2
    (by simp; omega) (by simp [Ne.symm p13, Ne.symm p23]) (by simp [Ne.symm d13, Ne.symm d23])
  have f1 := forward_isList fuel i3 (by simp; omega)
  have b1 := backward_isList fuel i3 (by simp; omega)
  -- test 2
  obtain ⟨t4, r4, i4, o4, u4⟩ := own_insertAtBeginning p4 d4 "Zoe" i3 o3
    (by simp [Ne.symm p14, Ne.symm p24, Ne.symm p34])
    (by simp [Ne.symm d14, Ne.symm d24, Ne.symm d34])
  have f2 := forward_isList fuel i4 (by simp; omega)
  have b2 := backward_isList fuel i4 (by simp; omega)
  -- test 3
  have g1 := findNode_isList_present [⟨p4, d4, "Zoe"⟩, ⟨p1, d1, "Alice"⟩]
    [⟨p3, d3, "Charlie"⟩] ⟨p2, d2, "Bob"⟩ fuel i4 (by simp; omega) (by simp)
  have g2 := findNode_isList_absent fuel "David" i4 (by simp; omega) (by simp)
  -- test 4
  obtain ⟨t5, r5, i5, o5, u5⟩ := own_deleteNode [⟨p4, d4, "Zoe"⟩, ⟨p1, d1, "Alice"⟩]
    [⟨p3, d3, "Charlie"⟩] ⟨p2, d2, "Bob"⟩ fuel i4 o4 (by simp; omega) (by simp)
  have f4 := forward_isList fuel i5 (by simp; omega)
  have b4 := backward_isList fuel i5 (by simp; omega)
  -- test 5
  obtain ⟨t6, r6, i6, o6, u6⟩ := own_deleteNode []
    [⟨p1, d1, "Alice"⟩, ⟨p3, d3, "Charlie"⟩] ⟨p4, d4, "Zoe"⟩ fuel i5 o5 (by simp; omega)
    (by simp)
  have f5 := forward_isList fuel i6 (by simp; omega)
  have b5 := backward_isList fuel i6 (by simp; omega)
  -- test 6
  obtain ⟨t7, r7, i7, o7, u7⟩ := own_deleteNode [⟨p1, d1, "Alice"⟩] []
    ⟨p3, d3, "Charlie"⟩ fuel i6 o6 (by simp; omega) (by simp)
  have f6 := forward_isList fuel i7 (by simp; omega)
  have b6 := backward_isList fuel i7 (by simp; omega)
  -- test 7
  obtain ⟨t8, r8, i8, o8, u8⟩ := own_deleteNode [] [] ⟨p1, d1, "Alice"⟩ fuel i7 o7
    (by simp; omega) (by simp)
  have f7 := forward_isList fuel i8 (by simp; omega)
  -- test 8 and the final clean up
  have r9 := deleteNode_absent fuel "NonExistent" i8 (by simp; omega) (by simp)
  obtain ⟨k, rfl⟩ : ∃ k, fuel = k + 1 := ⟨fuel - 1, by omega⟩
  simp only [headOr_nil, headOr_cons, List.nil_append, List.cons_append, List.singleton_append]
    at r1 r2 r3 r4 r5 r6 r7 r8 r9 f1 b1 f2 b2 g1 g2 f4 b4 f5 b5 f6 b6 f7
  refine ⟨{
      test1Forward := ["Alice", "Bob", "Charlie"], test1Backward := ["Charlie", "Bob", "Alice"],
      test2Forward := ["Zoe", "Alice", "Bob", "Charlie"],
      test2Backward := ["Charlie", "Bob", "Alice", "Zoe"],
      test3Bob := some p2, test3David := none,
      test4Forward := ["Zoe", "Alice", "Charlie"], test4Backward := ["Charlie", "Alice", "Zoe"],
      test5Forward := ["Alice", "Charlie"], test5Backward := ["Charlie", "Alice"],
      test6Forward := ["Alice"], test6Backward := ["Alice"], test7Forward := [],
      test8List := none, test8Out := t8.out ++ [notFoundNotice "NonExistent"],
      finalList := none,
      finalState := { t8 with out := t8.out ++ [notFoundNotice "NonExistent"] } }, ?_, ?_⟩
  · simp only [main, r1, r2, r3, r4, r5, r6, r7, r8, r9, f1, b1, f2, b2, g1, g2, f4, b4, f5,
      b5, f6, b6, f7, freeList]
    rfl
  · simp [values, u8, u7, u6, u5, u4, u3, u2, u1, State.init]

theorem main_scenario_witness :
    ∃ tr, main 5 ⟨some 1, some 11⟩ ⟨some 2, some 12⟩ ⟨some 3, some 13⟩ ⟨some 4, some 14⟩
        = some tr ∧
      tr.test1Forward = ["Alice", "Bob", "Charlie"] ∧
      tr.test1Backward = ["Charlie", "Bob", "Alice"] ∧
      tr.test2Forward = ["Zoe", "Alice", "Bob", "Charlie"] ∧
      tr.test2Backward = ["Charlie", "Bob", "Alice", "Zoe"] ∧
      tr.test3Bob = some 2 ∧ tr.test3David = none ∧
      tr.test4Forward = ["Zoe", "Alice", "Charlie"] ∧
      tr.test4Backward = ["Charlie", "Alice", "Zoe"] ∧
      tr.test5Forward = ["Alice", "Charlie"] ∧
      tr.test5Backward = ["Charlie", "Alice"] ∧
      tr.test6Forward = ["Alice"] ∧
      tr.test6Backward = ["Alice"] ∧
      tr.test7Forward = [] ∧
      tr.test8List = none ∧ tr.test8Out = [notFoundNotice "NonExistent"] ∧
      tr.finalList = none :=
  main_scenario 5 1 2 3 4 11 12 13 14 (by decide) (by decide) (by decide)

/-- C10 fails as stated: `sampleOne` is a well-formed one-node list with head
reference 1; `freeList` on it succeeds, but the caller's head reference still
holds the address of the released node, and the forward traversal from it is
an access to released memory for every fuel, not the empty sequence. -/
theorem freeList_leaves_head_dangling :
    WellFormed sampleOne (some 1) ∧
    ∃ t, freeList 2 sampleOne (some 1) = some t ∧
      ∀ fuel, forward fuel t (some 1) = none ∧ forward fuel t (some 1) ≠ some [] := by
  refine ⟨sampleOne_isList.toWellFormed, { sampleOne with
    strs := set sampleOne.strs 11 none, nodes := set sampleOne.nodes 1 none }, rfl, ?_⟩
  intro fuel
  cases fuel with
  | zero => simp [forward]
  | succ n => simp [forward]

/-- C10, as the code behaves: `freeList` on a well-formed list releases every
node block and string block of the list and nothing else.  It receives the
head by value, so the list is empty for a head reference that is `NULL`
(which the caller's variable is only if the list was empty already or the
caller resets it): from a `NULL` head the forward traversal of the resulting
state is empty, and `insertAtEnd` on it yields exactly the one-element list. -/
theorem freeList_then_insertAtEnd (s : State) (head : Ptr) (es : List Entry) (fuel : Nat)
    (p d : Nat) (v : String)
    (hinv : ListInvariant s head es) (hf : es.length < fuel) :
    ∃ t, freeList fuel s head = some t ∧
      (∀ e ∈ es, t.nodes e.addr = none ∧ t.strs e.str = none) ∧
      (∀ q, q ∉ es.map Entry.addr → t.nodes q = s.nodes q) ∧
      (∀ q, q ∉ es.map Entry.str → t.strs q = s.strs q) ∧
      (head = none → t.nodes = s.nodes ∧ t.strs = s.strs) ∧
      forward fuel t none = some [] ∧
      (t.nodes p = none → t.strs d = none →
        ∃ u, insertAtEnd fuel t ⟨some p, some d⟩ none v = some (u, some p) ∧
          forward (fuel + 1) u (some p) = some [v]) := by
  have h := isList_iff_invariant.2 hinv
  obtain ⟨t, ht, hrel, hfn, hfs, _, _⟩ := freeList_isList fuel h hf
  refine ⟨t, ht, hrel, hfn, hfs, ?_, ?_, ?_⟩
  · intro hnone
    have hes : es = [] := by
      cases es with
      | nil => rfl
      | cons e l => rw [h.1] at hnone; cases hnone
    subst hes
    exact ⟨funext fun q => hfn q (by simp), funext fun q => hfs q (by simp)⟩
  · have : fuel = (fuel - 1) + 1 := by omega
    rw [this]; rfl
  · intro hp hd
    obtain ⟨u, hu, hl, _⟩ := insertAtEnd_isList fuel p d v (isList_nil t) (by simp) hp hd
    exact ⟨u, hu, forward_isList (fuel + 1) hl (by simp; omega)⟩

theorem freeList_then_insertAtEnd_witness :
    ∃ t, freeList 4 sampleState (some 1) = some t ∧
      (t.nodes 1 = none ∧ t.strs 11 = none) ∧
      forward 4 t none = some [] ∧
      ∃ u, insertAtEnd 4 t ⟨some 1, some 11⟩ none "Zoe" = some (u, some 1) ∧
        forward 5 u (some 1) = some ["Zoe"] := by
  obtain ⟨t, ht, hrel, _, _, _, hfw, hins⟩ :=
    freeList_then_insertAtEnd sampleState (some 1) sampleEntries 4 1 11 "Zoe"
      sample_invariant (by decide)
  have h1 := hrel ⟨1, 11, "Alice"⟩ (by decide)
  exact ⟨t, ht, h1, hfw, hins h1.1 h1.2⟩

/-- C11: when `createNode` fails, because `malloc` returns `NULL` for the
node or, after giving a block that was not live for the node, for the string,
it returns `NULL`, and `insertAtBeginning` and `insertAtEnd` return the
original head with every node block and string block as before, for empty and
non-empty lists alike; only a message on stderr is added. -/
theorem insert_alloc_failure_unchanged (s : State) (head : Ptr) (v : String) (fuel p : Nat)
    (x : Ptr) (hp : s.nodes p = none) :
    (createNode s ⟨none, x⟩ v).2 = none ∧ (createNode s ⟨some p, none⟩ v).2 = none ∧
    (∃ t, insertAtBeginning s ⟨none, x⟩ head v = some (t, head) ∧ SameMemory s t ∧
      t.out = s.out ∧ t.err = s.err ++ ["Memory allocation failed for node\n"]) ∧
    (∃ t, insertAtBeginning s ⟨some p, none⟩ head v = some (t, head) ∧ SameMemory s t ∧
      t.out = s.out ∧ t.err = s.err ++ ["Memory allocation failed for string\n"]) ∧
    (∃ t, insertAtEnd fuel s ⟨none, x⟩ head v = some (t, head) ∧ SameMemory s t ∧
      t.out = s.out ∧ t.err = s.err ++ ["Memory allocation failed for node\n"]) ∧
    (∃ t, insertAtEnd fuel s ⟨some p, none⟩ head v = some (t, head) ∧ SameMemory s t ∧
      t.out = s.out ∧ t.err = s.err ++ ["Memory allocation failed for string\n"]) := by
  refine ⟨rfl, rfl, ⟨_, rfl, sameMemory_of_eq rfl rfl, rfl, rfl⟩,
    ⟨_, rfl, sameMemory_of_eq (set_fresh _ _ hp) rfl, rfl, rfl⟩,
    ⟨_, rfl, sameMemory_of_eq rfl rfl, rfl, rfl⟩,
    ⟨_, rfl, sameMemory_of_eq (set_fresh _ _ hp) rfl, rfl, rfl⟩⟩

theorem insert_alloc_failure_unchanged_witness :
    (∃ t, insertAtBeginning sampleState ⟨some 4, none⟩ (some 1) "Zoe" = some (t, some 1) ∧
      SameMemory sampleState t ∧ t.out = sampleState.out ∧
      t.err = sampleState.err ++ ["Memory allocation failed for string\n"]) ∧
    (∃ t, insertAtEnd 0 sampleState ⟨none, none⟩ (some 1) "Zoe" = some (t, some 1) ∧
      SameMemory sampleState t ∧ t.out = sampleState.out ∧
      t.err = sampleState.err ++ ["Memory allocation failed for node\n"]) :=
  have h := insert_alloc_failure_unchanged sampleState (some 1) "Zoe" 0 4 none rfl
  ⟨h.2.2.2.1, h.2.2.2.2.1⟩

/-- C12 fails as stated: on the well-formed one-node list `sampleOne`, an
`insertAtEnd` whose allocation fails and one whose allocations succeed return
the same value to the caller, the original head. -/
theorem insertAtEnd_failure_same_result :
    WellFormed sampleOne (some 1) ∧
    ∃ t u, insertAtEnd 2 sampleOne ⟨none, none⟩ (some 1) "Bob" = some (t, some 1) ∧
      insertAtEnd 2 sampleOne ⟨some 2, some 12⟩ (some 1) "Bob" = some (u, some 1) := by
  obtain ⟨u, hu, _⟩ := insertAtEnd_isList 2 2 12 "Bob" sampleOne_isList (by decide) rfl rfl
  exact ⟨sampleOne_isList.toWellFormed, _, u, rfl, hu⟩

/-- C12, as the code behaves: a failed insertion returns the original head and
writes a message to stderr, which a successful one does not.  The returned
value differs from that of a successful insertion on the same list for
`insertAtBeginning`, and for `insertAtEnd` on the empty list; for `insertAtEnd`
on a non-empty list both return the original head. -/
theorem insert_failure_signal (s : State) (head : Ptr) (p d : Nat) (v : String)
    (fuel : Nat) (vs : List String) (a : Alloc)
    (wf : WellFormed s head) (hp : s.nodes p = none) (hd : s.strs d = none)
    (hfw : forward fuel s head = some vs) (ha : a.node = none ∨ a.str = none) :
    (∃ t u, insertAtBeginning s a head v = some (t, head) ∧
      insertAtBeginning s ⟨some p, some d⟩ head v = some (u, some p) ∧
      head ≠ some p ∧ t.err ≠ s.err ∧ u.err = s.err) ∧
    (∃ t u newHead, insertAtEnd fuel s a head v = some (t, head) ∧
      insertAtEnd fuel s ⟨some p, some d⟩ head v = some (u, newHead) ∧
      (head = none → newHead ≠ head) ∧ (head ≠ none → newHead = head) ∧
      t.err ≠ s.err ∧ u.err = s.err) := by
  obtain ⟨es, h⟩ := wellFormed_iff.1 wf
  obtain ⟨rfl, hlen⟩ := forward_inv h hfw
  have hne : head ≠ some p := fun hh => h.head_live hh hp
  obtain ⟨u1, hu1, _, _, he1, _⟩ := insertAtBeginning_isList p d v h hp hd
  obtain ⟨u2, hu2, _, _, he2, _⟩ := insertAtEnd_isList fuel p d v h (by omega) hp hd
  have hfail : ∃ t, createNode s a v = (t, none) ∧ t.err ≠ s.err := by
    obtain ⟨an, as⟩ := a
    rcases ha with ha | ha
    · simp only at ha; subst ha
      exact ⟨_, rfl, err_append_ne _ _⟩
    · simp only at ha; subst ha
      cases an with
      | none => exact ⟨_, rfl, err_append_ne _ _⟩
      | some q => exact ⟨_, rfl, err_append_ne _ _⟩
  obtain ⟨t, hc, hte⟩ := hfail
  refine ⟨⟨t, u1, by simp [insertAtBeginning, hc], hu1, hne, hte, he1⟩,
    ⟨t, u2, _, by simp [insertAtEnd, hc], hu2, ?_, ?_, hte, he2⟩⟩
  · intro hnone
    have : es = [] := by
      cases es with
      | nil => rfl
      | cons e l => rw [h.1] at hnone; cases hnone
    subst this
    rw [hnone]; simp
  · intro hsome
    cases es with
    | nil => exact absurd h.1 hsome
    | cons e l => rw [h.1]; rfl

theorem insert_failure_signal_witness :
    (∃ t u, insertAtBeginning sampleState ⟨some 4, none⟩ (some 1) "Zoe" = some (t, some 1) ∧
      insertAtBeginning sampleState ⟨some 4, some 14⟩ (some 1) "Zoe" = some (u, some 4) ∧
      (some 1 : Ptr) ≠ some 4 ∧ t.err ≠ sampleState.err ∧ u.err = sampleState.err) ∧
    (∃ t u newHead, insertAtEnd 4 sampleState ⟨some 4, none⟩ (some 1) "Zoe"
        = some (t, some 1) ∧
      insertAtEnd 4 sampleState ⟨some 4, some 14⟩ (some 1) "Zoe" = some (u, newHead) ∧
      ((some 1 : Ptr) = none → newHead ≠ some 1) ∧ ((some 1 : Ptr) ≠ none → newHead = some 1) ∧
      t.err ≠ sampleState.err ∧ u.err = sampleState.err) :=
  insert_failure_signal sampleState (some 1) 4 14 "Zoe" 4 ["Alice", "Bob", "Alice"]
    ⟨some 4, none⟩ sample_wellFormed rfl rfl rfl (Or.inr rfl)

/-- C13: on a well-formed list with nodes `es`, `freeList` passes to `free`
exactly the string block and the node block of every node, each once (node by
node in traversal order, the string first), and afterwards none of them is
live; `deleteNode` passes to `free` exactly the string block and the node block
of the one node it unlinks (the first node holding the value), and nothing
when the value is absent. -/
theorem free_exactly_once (s : State) (head : Ptr) (es : List Entry) (v : String)
    (fuel : Nat) (hinv : ListInvariant s head es) (hf : es.length < fuel) :
    (∃ t, freeListLog fuel s head = some (t, blocksOf es) ∧ freeList fuel s head = some t ∧
      (blocksOf es).Nodup ∧
      (∀ e ∈ es, (blocksOf es).count (Block.node e.addr) = 1 ∧
        (blocksOf es).count (Block.str e.str) = 1) ∧
      (∀ b ∈ blocksOf es, ∃ e ∈ es, b = Block.node e.addr ∨ b = Block.str e.str) ∧
      (∀ e ∈ es, t.nodes e.addr = none ∧ t.strs e.str = none)) ∧
    (∀ l1 e l2, es = l1 ++ e :: l2 → e.val = v → v ∉ values l1 →
      ∃ t newHead, deleteNodeLog fuel s head v =
          some (t, newHead, [Block.str e.str, Block.node e.addr]) ∧
        deleteNode fuel s head v = some (t, newHead) ∧
        ListInvariant t newHead (l1 ++ l2) ∧
        t.nodes e.addr = none ∧ t.strs e.str = none) ∧
    (v ∉ values es →
      ∃ t, deleteNodeLog fuel s head v = some (t, head, []) ∧
        deleteNode fuel s head v = some (t, head)) := by
  have h := isList_iff_invariant.2 hinv
  refine ⟨?_, ?_, ?_⟩
  · obtain ⟨t, hlog, hfree⟩ := freeListLog_isList fuel h hf
    obtain ⟨t2, ht2, hrel, _⟩ := freeList_isList fuel h hf
    rw [hfree] at ht2
    cases ht2
    exact ⟨t, hlog, hfree, blocksOf_nodup h.2.2.1 h.2.2.2, blocksOf_count h,
      fun b hb => mem_blocksOf.1 hb, hrel⟩
  · intro l1 e l2 hes hev hl1
    subst hes hev
    have hfind := findNode_isList_present l1 l2 e fuel h (by simp at hf; omega) hl1
    obtain ⟨t, ht, hl, _, _, hn, hs, _⟩ :=
      deleteNode_isList l1 l2 e fuel h (by simp at hf; omega) hl1
    obtain ⟨log, hlog⟩ := deleteNodeLog_of_deleteNode ht
    obtain ⟨_, hseg, _, _⟩ := h
    obtain ⟨_, he, _, _⟩ := (Seg.append_iff s l1 (e :: l2) none none).1 hseg
    rcases deleteNodeLog_log hlog with ⟨hnone, _⟩ | ⟨x, n, hx, hnx, hl2⟩
    · rw [hfind] at hnone; cases hnone
    · rw [hfind] at hx
      cases hx
      rw [he] at hnx
      cases hnx
      rw [hl2] at hlog
      exact ⟨t, _, hlog, ht, isList_iff_invariant.1 hl, hn, hs⟩
  · intro hv
    have hd := deleteNode_absent fuel v h hf hv
    obtain ⟨log, hlog⟩ := deleteNodeLog_of_deleteNode hd
    rcases deleteNodeLog_log hlog with ⟨_, hl2⟩ | ⟨x, n, hx, _, _⟩
    · rw [hl2] at hlog
      exact ⟨_, hlog, hd⟩
    · rw [findNode_isList_absent fuel v h hf hv] at hx; cases hx

theorem free_exactly_once_witness :
    (∃ t, freeListLog 4 sampleState (some 1) = some (t,
        [Block.str 11, Block.node 1, Block.str 12, Block.node 2, Block.str 13, Block.node 3]) ∧
      freeList 4 sampleState (some 1) = some t) ∧
    (∃ t newHead, deleteNodeLog 4 sampleState (some 1) "Bob" =
        some (t, newHead, [Block.str 12, Block.node 2]) ∧
      deleteNode 4 sampleState (some 1) "Bob" = some (t, newHead) ∧
      ListInvariant t newHead [⟨1, 11, "Alice"⟩, ⟨3, 13, "Alice"⟩]) := by
  obtain ⟨⟨t, h1, h2, _⟩, hdel, _⟩ :=
    free_exactly_once sampleState (some 1) sampleEntries "Bob" 4 sample_invariant (by decide)
  obtain ⟨u, nh, h3, h4, h5, _⟩ :=
    hdel [⟨1, 11, "Alice"⟩] ⟨2, 12, "Bob"⟩ [⟨3, 13, "Alice"⟩] rfl rfl (by decide)
  exact ⟨⟨t, h1, h2⟩, u, nh, h3, h4, h5⟩

/-- C14: after `deleteNode` has removed a node from a well-formed list, nothing
in the list refers to it: the returned head is not the released node, and no
node of the resulting list has a `next` or `prev` link to the released node,
or a `data` pointer to its released string. -/
theorem deleteNode_no_dangling (s : State) (head : Ptr) (es : List Entry) (v : String)
    (fuel : Nat) (hinv : ListInvariant s head es) (hf : es.length < fuel)
    (hv : v ∈ values es) :
    ∃ t newHead p es1, findNode fuel s head v = some (some p) ∧
      deleteNode fuel s head v = some (t, newHead) ∧
      s.nodes p ≠ none ∧ t.nodes p = none ∧
      ListInvariant t newHead es1 ∧ forward fuel t newHead = some (values es1) ∧
      newHead ≠ some p ∧
      ∀ x ∈ es1, ∃ n, t.nodes x.addr = some n ∧ n.next ≠ some p ∧ n.prev ≠ some p ∧
        ∃ d, n.data = some d ∧ t.strs d ≠ none := by
  have h := isList_iff_invariant.2 hinv
  obtain ⟨l1, e, l2, rfl, rfl, hl1⟩ := split_first v es hv
  have hfind := findNode_isList_present l1 l2 e fuel h (by simp at hf; omega) hl1
  obtain ⟨t, ht, hl, _, _, hn, _, _⟩ :=
    deleteNode_isList l1 l2 e fuel h (by simp at hf; omega) hl1
  have hna := h.2.2.1
  rw [List.map_append, List.map_cons] at hna
  obtain ⟨_, _, nae1, nae2, _, _⟩ := nodup_middle hna
  have hnot : ∀ y ∈ l1 ++ l2, y.addr ≠ e.addr := by
    intro y hy heq
    rcases List.mem_append.1 hy with hy | hy
    · exact nae1 (heq ▸ List.mem_map_of_mem Entry.addr hy)
    · exact nae2 (heq ▸ List.mem_map_of_mem Entry.addr hy)
  have hlive : s.nodes e.addr ≠ none :=
    (h.2.1.node_live e (by simp)).1
  refine ⟨t, _, e.addr, l1 ++ l2, hfind, ht, hlive, hn, isList_iff_invariant.1 hl,
    forward_isList fuel hl (by simp at hf ⊢; omega), ?_, ?_⟩
  · intro heq
    cases hl12 : l1 ++ l2 with
    | nil => rw [hl12] at heq; cases heq
    | cons y l =>
      rw [hl12] at heq
      have : y.addr = e.addr := by simpa using heq
      exact hnot y (by rw [hl12]; simp) this
  · intro x hx
    obtain ⟨n, hnx, _, hsx⟩ := hl.2.1.node_eq x hx
    obtain ⟨hd, hnext, hprev⟩ := hl.2.1.links x hx n hnx
    refine ⟨n, hnx, ?_, ?_, x.str, hd, by simp [hsx]⟩
    · rcases hnext with h0 | ⟨y, hy, h0⟩
      · rw [h0]; simp
      · rw [h0]
        intro heq
        exact hnot y hy (by simpa using heq)
    · rcases hprev with h0 | ⟨y, hy, h0⟩
      · rw [h0]; simp
      · rw [h0]
        intro heq
        exact hnot y hy (by simpa using heq)

theorem deleteNode_no_dangling_witness :
    ∃ t newHead p es1, findNode 4 sampleState (some 1) "Bob" = some (some p) ∧
      deleteNode 4 sampleState (some 1) "Bob" = some (t, newHead) ∧
      sampleState.nodes p ≠ none ∧ t.nodes p = none ∧
      ListInvariant t newHead es1 ∧ forward 4 t newHead = some (values es1) ∧
      newHead ≠ some p ∧
      ∀ x ∈ es1, ∃ n, t.nodes x.addr = some n ∧ n.next ≠ some p ∧ n.prev ≠ some p ∧
        ∃ d, n.data = some d ∧ t.strs d ≠ none :=
  deleteNode_no_dangling sampleState (some 1) sampleEntries "Bob" 4 sample_invariant
    (by decide) (by decide)

/-- C15: on a well-formed non-empty list whose head holds `w`, `deleteNode`
returns the successor of the head (its `next` field, `NULL` when the head is
the only node) exactly when `w` is the value searched for, and the original
head in every other case (value absent, or first found in a later node);
`insertAtEnd` on a non-empty list returns the original head, whether the
allocations succeed or fail. -/
theorem deleteNode_head_result (s : State) (head : Ptr) (v w : String) (vs : List String)
    (fuel p d : Nat) (x : Ptr)
    (wf : WellFormed s head) (hfw : forward fuel s head = some (w :: vs))
    (hp : s.nodes p = none) (hd : s.strs d = none) :
    ∃ h n, head = some h ∧ s.nodes h = some n ∧ (vs = [] → n.next = none) ∧
      (∃ t newHead, deleteNode fuel s head v = some (t, newHead) ∧
        (newHead = n.next ↔ w = v) ∧ (w ≠ v → newHead = head)) ∧
      (∃ t, insertAtEnd fuel s ⟨some p, some d⟩ head v = some (t, head)) ∧
      (∃ t, insertAtEnd fuel s ⟨none, x⟩ head v = some (t, head)) ∧
      (∃ t, insertAtEnd fuel s ⟨some p, none⟩ head v = some (t, head)) := by
  obtain ⟨es, h⟩ := wellFormed_iff.1 wf
  obtain ⟨hvs, hlen⟩ := forward_inv h hfw
  match es, h, hvs, hlen with
  | e :: es, h, hvs, hlen =>
    have hw : e.val = w := by
      have := (List.cons.inj hvs).1; exact this.symm
    have hvs2 : vs = values es := (List.cons.inj hvs).2
    subst hw
    have hhead : head = some e.addr := h.1
    have hn := h.2.1.1
    have hna := h.2.2.1
    have hsucc : headOr es none ≠ some e.addr := by
      cases es with
      | nil => simp
      | cons y l =>
        intro heq
        have h1 : y.addr = e.addr := by simpa using heq
        have h2 := (List.nodup_cons.1 hna).1
        apply h2
        simp [h1]
    have hlen2 : es.length + 1 < fuel := by simpa using hlen
    refine ⟨e.addr, _, hhead, hn, ?_, ?_, ?_, ⟨_, rfl⟩, ⟨_, rfl⟩⟩
    · intro hnil
      rw [hvs2] at hnil
      cases es with
      | nil => rfl
      | cons y l => simp at hnil
    · by_cases hev : e.val = v
      · subst hev
        obtain ⟨t, ht, _⟩ := deleteNode_isList [] es e fuel h (by simp; omega) (by simp)
        exact ⟨t, _, ht, by simp, fun hne => absurd rfl hne⟩
      · by_cases hv : v ∈ values es
        · obtain ⟨l1, y, l2, rfl, rfl, hl1⟩ := split_first _ es hv
          have hl1e : y.val ∉ values (e :: l1) := by
            intro hm
            rcases List.mem_cons.1 hm with h0 | h0
            · exact hev h0.symm
            · exact hl1 h0
          obtain ⟨t, ht, _⟩ := deleteNode_isList (e :: l1) l2 y fuel h
            (by simp at hlen2 ⊢; omega) hl1e
          refine ⟨t, _, ht, ?_, fun _ => hhead.symm⟩
          constructor
          · intro heq
            exact absurd heq.symm hsucc
          · intro h0; exact absurd h0 hev
        · have hve : v ∉ values (e :: es) := by
            intro hm
            rcases List.mem_cons.1 hm with h0 | h0
            · exact hev h0.symm
            · exact hv h0
          refine ⟨_, _, deleteNode_absent fuel v h hlen hve, ?_, fun _ => rfl⟩
          constructor
          · intro heq
            rw [hhead] at heq
            exact absurd heq.symm hsucc
          · intro h0; exact absurd h0 hev
    · obtain ⟨t, ht, _⟩ := insertAtEnd_isList fuel p d v h (by simp; omega) hp hd
      exact ⟨t, by rw [ht, hhead]; rfl⟩

theorem deleteNode_head_result_witness :
    ∃ h n, (some 1 : Ptr) = some h ∧ sampleState.nodes h = some n ∧
      (["Bob", "Alice"] = [] → n.next = none) ∧
      (∃ t newHead, deleteNode 4 sampleState (some 1) "Alice" = some (t, newHead) ∧
        (newHead = n.next ↔ "Alice" = "Alice") ∧ ("Alice" ≠ "Alice" → newHead = some 1)) ∧
      (∃ t, insertAtEnd 4 sampleState ⟨some 4, some 14⟩ (some 1) "Alice" = some (t, some 1)) ∧
      (∃ t, insertAtEnd 4 sampleState ⟨none, none⟩ (some 1) "Alice" = some (t, some 1)) ∧
      (∃ t, insertAtEnd 4 sampleState ⟨some 4, none⟩ (some 1) "Alice" = some (t, some 1)) :=
  deleteNode_head_result sampleState (some 1) "Alice" "Alice" ["Bob", "Alice"] 4 4 14 none
    sample_wellFormed rfl rfl rfl

/-- C16: on a well-formed list of `n` nodes every loop finishes within the
fuel that `n` node visits need (one unit per evaluation of a loop condition:
`n` for the tail-seeking loop, `n + 1` for the loops that stop at `NULL`):
the forward and backward traversals return exactly `n` values, and
`findNode`, `deleteNode`, `freeList`, the tail-seeking loop and `insertAtEnd`
all return. -/
theorem operations_terminate (s : State) (head : Ptr) (es : List Entry) (v : String)
    (p d : Nat) (hinv : ListInvariant s head es)
    (hp : s.nodes p = none) (hd : s.strs d = none) :
    (∀ fuel, es.length < fuel →
      (∃ vs, forward fuel s head = some vs ∧ vs.length = es.length) ∧
      (∃ bs, backward fuel s head = some bs ∧ bs.length = es.length) ∧
      (∃ r, findNode fuel s head v = some r) ∧
      (∃ r, deleteNode fuel s head v = some r) ∧
      (∃ t, freeList fuel s head = some t)) ∧
    (∀ fuel, es.length ≤ fuel →
      (∀ h, head = some h → ∃ tail, seekTail fuel s h = some tail) ∧
      (∃ r, insertAtEnd fuel s ⟨some p, some d⟩ head v = some r)) := by
  have h := isList_iff_invariant.2 hinv
  constructor
  · intro fuel hf
    refine ⟨⟨_, forward_isList fuel h hf, by simp⟩, ⟨_, backward_isList fuel h hf, by simp⟩,
      ?_, ?_, ?_⟩
    · by_cases hv : v ∈ values es
      · obtain ⟨l1, e, l2, rfl, rfl, hl1⟩ := split_first v es hv
        exact ⟨_, findNode_isList_present l1 l2 e fuel h (by simp at hf; omega) hl1⟩
      · exact ⟨_, findNode_isList_absent fuel v h hf hv⟩
    · by_cases hv : v ∈ values es
      · obtain ⟨l1, e, l2, rfl, rfl, hl1⟩ := split_first v es hv
        obtain ⟨t, ht, _⟩ := deleteNode_isList l1 l2 e fuel h (by simp at hf; omega) hl1
        exact ⟨_, ht⟩
      · exact ⟨_, deleteNode_absent fuel v h hf hv⟩
    · obtain ⟨t, ht, _⟩ := freeList_isList fuel h hf
      exact ⟨t, ht⟩
  · intro fuel hf
    constructor
    · intro a ha
      obtain ⟨hh, hseg, _, _⟩ := h
      cases es with
      | nil => rw [ha] at hh; cases hh
      | cons e l =>
        rw [ha] at hh
        cases hh
        obtain ⟨k, rfl⟩ : ∃ k, fuel = l.length + 1 + k :=
          ⟨fuel - (l.length + 1), by simp at hf; omega⟩
        obtain ⟨b, hb⟩ := lastOr_some l e.addr
        exact ⟨b, by rw [seekTail_seg s l e none k hseg, hb]⟩
    · obtain ⟨t, ht, _⟩ := insertAtEnd_isList fuel p d v h hf hp hd
      exact ⟨_, ht⟩

theorem operations_terminate_witness :
    (∃ vs, forward 4 sampleState (some 1) = some vs ∧ vs.length = 3) ∧
    (∃ bs, backward 4 sampleState (some 1) = some bs ∧ bs.length = 3) ∧
    (∃ r, findNode 4 sampleState (some 1) "Zoe" = some r) ∧
    (∃ r, deleteNode 4 sampleState (some 1) "Zoe" = some r) ∧
    (∃ t, freeList 4 sampleState (some 1) = some t) ∧
    (∃ tail, seekTail 3 sampleState 1 = some tail) ∧
    (∃ r, insertAtEnd 3 sampleState ⟨some 4, some 14⟩ (some 1) "Zoe" = some r) := by
  have h := operations_terminate sampleState (some 1) sampleEntries "Zoe" 4 14
    sample_invariant rfl rfl
  obtain ⟨h1, h2, h3, h4, h5⟩ := h.1 4 (by decide)
  obtain ⟨h6, h7⟩ := h.2 3 (by decide)
  exact ⟨h1, h2, h3, h4, h5, h6 1 rfl, h7⟩

/-- C17: on every well-formed list, deleting `v` right after a successful
`insertAtBeginning` of `v` removes the node just inserted and restores the
list: the returned head is the original head, every node block and string
block is as before the insertion (so the forward traversal is the original one
and the original head has `prev == NULL` again), also when the list already
contains `v`. -/
theorem delete_after_insertAtBeginning (s : State) (head : Ptr) (p d : Nat) (v : String)
    (fuel : Nat) (wf : WellFormed s head) (hp : s.nodes p = none) (hd : s.strs d = none)
    (hf : 0 < fuel) :
    ∃ t1 t2, insertAtBeginning s ⟨some p, some d⟩ head v = some (t1, some p) ∧
      deleteNode fuel t1 (some p) v = some (t2, head) ∧
      SameMemory s t2 ∧ WellFormed t2 head ∧
      (∀ f, forward f t2 head = forward f s head) ∧
      (∀ h, head = some h → ∃ n, t2.nodes h = some n ∧ n.prev = none) := by
  obtain ⟨es, h⟩ := wellFormed_iff.1 wf
  obtain ⟨t1, t2, h1, h2, hn, hs, _, _, hl⟩ :=
    delete_insertAtBeginning_isList p d fuel v h hp hd hf
  refine ⟨t1, t2, h1, h2, sameMemory_of_eq hn hs, hl.toWellFormed,
    fun f => forward_congr hn hs f head, ?_⟩
  intro a ha
  obtain ⟨hh, hseg, _, _⟩ := hl
  cases es with
  | nil => rw [ha] at hh; cases hh
  | cons e l =>
    rw [ha] at hh
    cases hh
    exact ⟨_, hseg.1, rfl⟩

theorem delete_after_insertAtBeginning_witness :
    ∃ t1 t2, insertAtBeginning sampleState ⟨some 4, some 14⟩ (some 1) "Alice"
        = some (t1, some 4) ∧
      deleteNode 1 t1 (some 4) "Alice" = some (t2, some 1) ∧
      SameMemory sampleState t2 ∧
      forward 4 t2 (some 1) = some ["Alice", "Bob", "Alice"] ∧
      ∃ n, t2.nodes 1 = some n ∧ n.prev = none := by
  obtain ⟨t1, t2, h1, h2, h3, _, h4, h5⟩ :=
    delete_after_insertAtBeginning sampleState (some 1) 4 14 "Alice" 1 sample_wellFormed
      rfl rfl (by decide)
  exact ⟨t1, t2, h1, h2, h3, by rw [h4]; rfl, h5 1 rfl⟩

/-- C18: front and back insertion commute on the traversal.  On a well-formed
list, with every allocation succeeding on blocks that are not live, inserting
`b` at the end and then `a` at the beginning, or `a` at the beginning and then
`b` at the end, both give the forward traversal `a`, then the traversal of the
original list, then `b`. -/
theorem insert_front_back_commute (s : State) (head : Ptr) (a b : String)
    (p1 d1 p2 d2 p3 d3 p4 d4 : Nat) (wf : WellFormed s head)
    (hp1 : s.nodes p1 = none) (hd1 : s.strs d1 = none)
    (hp2 : s.nodes p2 = none) (hd2 : s.strs d2 = none)
    (hp3 : s.nodes p3 = none) (hd3 : s.strs d3 = none)
    (hp4 : s.nodes p4 = none) (hd4 : s.strs d4 = none)
    (h12 : p2 ≠ p1) (g12 : d2 ≠ d1) (h34 : p4 ≠ p3) (g34 : d4 ≠ d3) :
    (∃ fuel vs, forward fuel s head = some vs) ∧
    ∀ fuel vs, forward fuel s head = some vs →
      (∃ t1 head1 t2 head2, insertAtEnd fuel s ⟨some p1, some d1⟩ head b = some (t1, head1) ∧
        insertAtBeginning t1 ⟨some p2, some d2⟩ head1 a = some (t2, head2) ∧
        forward (fuel + 2) t2 head2 = some (a :: vs ++ [b])) ∧
      (∃ u1 head1 u2 head2,
        insertAtBeginning s ⟨some p3, some d3⟩ head a = some (u1, head1) ∧
        insertAtEnd (fuel + 1) u1 ⟨some p4, some d4⟩ head1 b = some (u2, head2) ∧
        forward (fuel + 2) u2 head2 = some (a :: vs ++ [b])) := by
  obtain ⟨es, h⟩ := wellFormed_iff.1 wf
  refine ⟨⟨_, _, forward_isList (es.length + 1) h (by omega)⟩, ?_⟩
  intro fuel vs hfw
  obtain ⟨rfl, hlen⟩ := forward_inv h hfw
  constructor
  · obtain ⟨t1, ht1, hl1, _, _, hfn, hfs⟩ :=
      insertAtEnd_isList fuel p1 d1 b h (by omega) hp1 hd1
    obtain ⟨hq, hr⟩ := fresh_after_insertAtEnd h hfn hfs hp2 hd2 h12 g12
    obtain ⟨t2, ht2, hl2, _⟩ := insertAtBeginning_isList p2 d2 a hl1 hq hr
    refine ⟨t1, _, t2, _, ht1, ht2, ?_⟩
    rw [forward_isList (fuel + 2) hl2 (by simp; omega)]
    simp
  · obtain ⟨u1, hu1, hl1, _, _, hfn, hfs⟩ := insertAtBeginning_isList p3 d3 a h hp3 hd3
    have hq : u1.nodes p4 = none := by
      rw [hfn p4 h34 (h.2.1.addr_ne hp4)]; exact hp4
    have hr : u1.strs d4 = none := by
      rw [hfs d4 g34]; exact hd4
    obtain ⟨u2, hu2, hl2, _⟩ :=
      insertAtEnd_isList (fuel + 1) p4 d4 b hl1 (by simp; omega) hq hr
    refine ⟨u1, _, u2, _, hu1, hu2, ?_⟩
    rw [forward_isList (fuel + 2) hl2 (by simp; omega)]
    simp

theorem insert_front_back_commute_witness :
    (∃ t1 head1 t2 head2,
      insertAtEnd 4 sampleState ⟨some 4, some 14⟩ (some 1) "Zed" = some (t1, head1) ∧
      insertAtBeginning t1 ⟨some 5, some 15⟩ head1 "Ann" = some (t2, head2) ∧
      forward 6 t2 head2 = some ["Ann", "Alice", "Bob", "Alice", "Zed"]) ∧
    (∃ u1 head1 u2 head2,
      insertAtBeginning sampleState ⟨some 4, some 14⟩ (some 1) "Ann" = some (u1, head1) ∧
      insertAtEnd 5 u1 ⟨some 5, some 15⟩ head1 "Zed" = some (u2, head2) ∧
      forward 6 u2 head2 = some ["Ann", "Alice", "Bob", "Alice", "Zed"]) :=
  (insert_front_back_commute sampleState (some 1) "Ann" "Zed" 4 14 5 15 4 14 5 15
    sample_wellFormed rfl rfl rfl rfl rfl rfl rfl rfl (by decide) (by decide) (by decide)
    (by decide)).2 4 ["Alice", "Bob", "Alice"] rfl

/-- C19: on a well-formed list with nodes `es`, `deleteNode` unlinks exactly
the node that `findNode` returns (none when it returns `NULL`).  The value
then occurs once less; if it occurred once, `findNode` no longer finds it; and
for every other value `findNode` returns the same node as before. -/
theorem find_delete_agree (s : State) (head : Ptr) (es : List Entry) (v : String)
    (fuel : Nat) (hinv : ListInvariant s head es) (hf : es.length < fuel) :
    ∃ r t newHead es1, findNode fuel s head v = some r ∧
      deleteNode fuel s head v = some (t, newHead) ∧
      ListInvariant t newHead es1 ∧
      (r = none → es1 = es ∧ SameMemory s t) ∧
      (∀ x, r = some x → s.nodes x ≠ none ∧ t.nodes x = none ∧
        es1.map Entry.addr = (es.map Entry.addr).erase x) ∧
      forward fuel t newHead = some ((values es).erase v) ∧
      (values es1).count v = (values es).count v - 1 ∧
      ((values es).count v = 1 → findNode fuel t newHead v = some none) ∧
      ∀ w, w ≠ v → findNode fuel t newHead w = findNode fuel s head w := by
  have h := isList_iff_invariant.2 hinv
  by_cases hv : v ∈ values es
  · obtain ⟨l1, e, l2, rfl, rfl, hl1⟩ := split_first v es hv
    have hfind := findNode_isList_present l1 l2 e fuel h (by simp at hf; omega) hl1
    obtain ⟨t, ht, hl, _, _, hn, _, _⟩ :=
      deleteNode_isList l1 l2 e fuel h (by simp at hf; omega) hl1
    have hlen1 : (l1 ++ l2).length < fuel := by simp at hf ⊢; omega
    have hna := h.2.2.1
    rw [List.map_append, List.map_cons] at hna
    obtain ⟨_, _, nae1, _, _, _⟩ := nodup_middle hna
    have hval : values (l1 ++ l2) = (values (l1 ++ e :: l2)).erase e.val :=
      (values_erase hl1).symm
    refine ⟨some e.addr, t, _, l1 ++ l2, hfind, ht, isList_iff_invariant.1 hl, ?_, ?_, ?_,
      ?_, ?_, ?_⟩
    · intro h0; cases h0
    · intro x hx
      cases hx
      refine ⟨(h.2.1.node_live e (by simp)).1, hn, ?_⟩
      rw [List.map_append, List.map_append, List.map_cons,
        List.erase_append_right _ nae1, List.erase_cons_head]
    · rw [forward_isList fuel hl hlen1, hval]
    · rw [hval, List.count_erase_self]
    · intro hc
      have h0 : (values (l1 ++ l2)).count e.val = 0 := by
        rw [hval, List.count_erase_self, hc]
      exact findNode_isList_absent fuel e.val hl hlen1 (List.count_eq_zero.1 h0)
    · intro w hw
      rw [findNode_isList_eq fuel w hl hlen1, findNode_isList_eq fuel w h hf,
        firstMatch_skip l2 (Ne.symm hw) l1]
  · have hd := deleteNode_absent fuel v h hf hv
    have hl : IsList { s with out := s.out ++ [notFoundNotice v] } head es := by
      apply h.congr <;> rfl
    refine ⟨none, _, head, es, findNode_isList_absent fuel v h hf hv, hd,
      isList_iff_invariant.1 hl, fun _ => ⟨rfl, sameMemory_of_eq rfl rfl⟩, ?_, ?_, ?_, ?_, ?_⟩
    · intro x hx; cases hx
    · rw [forward_isList fuel hl hf, List.erase_of_not_mem hv]
    · rw [List.count_eq_zero.2 hv]
    · intro hc
      rw [List.count_eq_zero.2 hv] at hc
      cases hc
    · intro w _
      rw [findNode_isList_eq fuel w hl hf, findNode_isList_eq fuel w h hf]

theorem find_delete_agree_witness :
    ∃ r t newHead es1, findNode 4 sampleState (some 1) "Alice" = some r ∧
      deleteNode 4 sampleState (some 1) "Alice" = some (t, newHead) ∧
      ListInvariant t newHead es1 ∧
      (r = none → es1 = sampleEntries ∧ SameMemory sampleState t) ∧
      (∀ x, r = some x → sampleState.nodes x ≠ none ∧ t.nodes x = none ∧
        es1.map Entry.addr = (sampleEntries.map Entry.addr).erase x) ∧
      forward 4 t newHead = some ((values sampleEntries).erase "Alice") ∧
      (values es1).count "Alice" = (values sampleEntries).count "Alice" - 1 ∧
      ((values sampleEntries).count "Alice" = 1 →
        findNode 4 t newHead "Alice" = some none) ∧
      ∀ w, w ≠ "Alice" → findNode 4 t newHead w = findNode 4 sampleState (some 1) w :=
  find_delete_agree sampleState (some 1) sampleEntries "Alice" 4 sample_invariant (by decide)

end LinkedList
